import Mathlib

/-!
Verification of the QR-code generator (`src/qr.cc`, class `QRCode`) against its
natural-language specification.  The C++ functions are shallowly embedded as
Lean definitions; machine `int` arithmetic is modelled by `Nat`/`Int` (with
`Int.tdiv`/`Int.tmod` for C truncating division where signs can matter), byte
XOR (`^`) by `Nat` `^^^`, and code paths that `throw` by `Option`-valued
functions returning `none`.
-/

set_option maxRecDepth 20000

namespace QR

/-! ## GF(256) log/antilog tables — `QRCode::rsGenerateLogExp` (qr.cc:539-549)

The C++ constructor initialises `rsLog_(256)` and `rsExp_(256)` to zero-filled
vectors; `rsGenerateLogExp` runs
`for (exp = 1, val = 1; exp < 256; exp++) { val = val > 127 ? ((val<<1)^285) : val<<1;
 rsLog_[val] = exp % 255; rsExp_[exp % 255] = val; }` and finally sets
`rsExp_[255] = 1`.  The loop counter `exp` is modelled as `e + 1` for
`e ∈ List.range 255`. -/

def rsGenStep (s : List Nat × List Nat × Nat) (e : Nat) : List Nat × List Nat × Nat :=
  let ex := e + 1
  let val := if s.2.2 > 127 then (s.2.2 <<< 1) ^^^ 285 else s.2.2 <<< 1
  (s.1.set val (ex % 255), (s.2.1.set (ex % 255) val, val))

def rsGenerateLogExp : List Nat × List Nat :=
  let s := (List.range 255).foldl rsGenStep (List.replicate 256 0, List.replicate 256 0, 1)
  (s.1, s.2.1.set 255 1)

/-- The log table the generator loop produces (for the primitive polynomial 0x11D). -/
def rsLogTable : List Nat := [0, 0, 1, 25, 2, 50, 26, 198, 3, 223, 51, 238, 27, 104, 199, 75, 4, 100, 224, 14, 52, 141, 239, 129, 28, 193, 105, 248, 200, 8, 76, 113, 5, 138, 101, 47, 225, 36, 15, 33, 53, 147, 142, 218, 240, 18, 130, 69, 29, 181, 194, 125, 106, 39, 249, 185, 201, 154, 9, 120, 77, 228, 114, 166, 6, 191, 139, 98, 102, 221, 48, 253, 226, 152, 37, 179, 16, 145, 34, 136, 54, 208, 148, 206, 143, 150, 219, 189, 241, 210, 19, 92, 131, 56, 70, 64, 30, 66, 182, 163, 195, 72, 126, 110, 107, 58, 40, 84, 250, 133, 186, 61, 202, 94, 155, 159, 10, 21, 121, 43, 78, 212, 229, 172, 115, 243, 167, 87, 7, 112, 192, 247, 140, 128, 99, 13, 103, 74, 222, 237, 49, 197, 254, 24, 227, 165, 153, 119, 38, 184, 180, 124, 17, 68, 146, 217, 35, 32, 137, 46, 55, 63, 209, 91, 149, 188, 207, 205, 144, 135, 151, 178, 220, 252, 190, 97, 242, 86, 211, 171, 20, 42, 93, 158, 132, 60, 57, 83, 71, 109, 65, 162, 31, 45, 67, 216, 183, 123, 164, 118, 196, 23, 73, 236, 127, 12, 111, 246, 108, 161, 59, 82, 41, 157, 85, 170, 251, 96, 134, 177, 187, 204, 62, 90, 203, 89, 95, 176, 156, 169, 160, 81, 11, 245, 22, 235, 122, 117, 44, 215, 79, 174, 213, 233, 230, 231, 173, 232, 116, 214, 244, 234, 168, 80, 88, 175]

/-- The antilog table the generator loop produces (index 255 patched to 1). -/
def rsExpTable : List Nat := [1, 2, 4, 8, 16, 32, 64, 128, 29, 58, 116, 232, 205, 135, 19, 38, 76, 152, 45, 90, 180, 117, 234, 201, 143, 3, 6, 12, 24, 48, 96, 192, 157, 39, 78, 156, 37, 74, 148, 53, 106, 212, 181, 119, 238, 193, 159, 35, 70, 140, 5, 10, 20, 40, 80, 160, 93, 186, 105, 210, 185, 111, 222, 161, 95, 190, 97, 194, 153, 47, 94, 188, 101, 202, 137, 15, 30, 60, 120, 240, 253, 231, 211, 187, 107, 214, 177, 127, 254, 225, 223, 163, 91, 182, 113, 226, 217, 175, 67, 134, 17, 34, 68, 136, 13, 26, 52, 104, 208, 189, 103, 206, 129, 31, 62, 124, 248, 237, 199, 147, 59, 118, 236, 197, 151, 51, 102, 204, 133, 23, 46, 92, 184, 109, 218, 169, 79, 158, 33, 66, 132, 21, 42, 84, 168, 77, 154, 41, 82, 164, 85, 170, 73, 146, 57, 114, 228, 213, 183, 115, 230, 209, 191, 99, 198, 145, 63, 126, 252, 229, 215, 179, 123, 246, 241, 255, 227, 219, 171, 75, 150, 49, 98, 196, 149, 55, 110, 220, 165, 87, 174, 65, 130, 25, 50, 100, 200, 141, 7, 14, 28, 56, 112, 224, 221, 167, 83, 166, 81, 162, 89, 178, 121, 242, 249, 239, 195, 155, 43, 86, 172, 69, 138, 9, 18, 36, 72, 144, 61, 122, 244, 245, 247, 243, 251, 235, 203, 139, 11, 22, 44, 88, 176, 125, 250, 233, 207, 131, 27, 54, 108, 216, 173, 71, 142, 1]

theorem rsGenerateLogExp_eq : rsGenerateLogExp = (rsLogTable, rsExpTable) := by decide

/-- Lookup into the generated log table (`rsLog_.at(x)`). -/
def rsLog (x : Nat) : Nat := rsGenerateLogExp.1.getD x 0

/-- Lookup into the generated antilog table (`rsExp_.at(i)`). -/
def rsExp (i : Nat) : Nat := rsGenerateLogExp.2.getD i 0

/-- `QRCode::reedSolomonMult` (qr.cc:551-553): `x && y ? rsExp_[(rsLog_[x]+rsLog_[y])%255] : 0`. -/
def reedSolomonMult (x y : Nat) : Nat :=
  if x ≠ 0 ∧ y ≠ 0 then rsExp ((rsLog x + rsLog y) % 255) else 0

/-- `QRCode::reedSolomonDiv` (qr.cc:555-557): `rsExp_[(rsLog_[x]+rsLog_[y])%255]`
(the source adds the logs; there is no zero guard). -/
def reedSolomonDiv (x y : Nat) : Nat := rsExp ((rsLog x + rsLog y) % 255)

theorem rsLog_eq_lit (x : Nat) : rsLog x = rsLogTable.getD x 0 := by
  unfold rsLog; rw [rsGenerateLogExp_eq]

theorem rsExp_eq_lit (i : Nat) : rsExp i = rsExpTable.getD i 0 := by
  unfold rsExp; rw [rsGenerateLogExp_eq]

theorem rsLog_one : rsLog 1 = 0 := by rw [rsLog_eq_lit]; decide

theorem rsLog_lt (x : Nat) (hx : x < 256) : rsLog x < 255 := by
  rw [rsLog_eq_lit]; revert hx; revert x; decide

theorem rsExp_rsLog (x : Nat) (h2 : x < 256) (h1 : 0 < x) : rsExp (rsLog x) = x := by
  rw [rsLog_eq_lit, rsExp_eq_lit]; revert h1 h2; revert x; decide

theorem reedSolomonMult_comm (x y : Nat) : reedSolomonMult x y = reedSolomonMult y x := by
  unfold reedSolomonMult
  by_cases hx : x = 0 <;> by_cases hy : y = 0 <;> simp [hx, hy, Nat.add_comm]

theorem reedSolomonMult_zero_left (y : Nat) : reedSolomonMult 0 y = 0 := by
  simp [reedSolomonMult]

theorem reedSolomonMult_one_right (x : Nat) (h2 : x < 256) (h1 : 0 < x) :
    reedSolomonMult x 1 = x := by
  unfold reedSolomonMult
  rw [if_pos ⟨Nat.pos_iff_ne_zero.mp h1, one_ne_zero⟩, rsLog_one, Nat.add_zero,
    Nat.mod_eq_of_lt (rsLog_lt x h2), rsExp_rsLog x h2 h1]

theorem reedSolomonDiv_one_right (x : Nat) (h2 : x < 256) (h1 : 0 < x) :
    reedSolomonDiv x 1 = x := by
  unfold reedSolomonDiv
  rw [rsLog_one, Nat.add_zero, Nat.mod_eq_of_lt (rsLog_lt x h2), rsExp_rsLog x h2 h1]

theorem reedSolomonDiv_one_left (y : Nat) (h2 : y < 256) (h1 : 0 < y) :
    reedSolomonDiv 1 y = y := by
  unfold reedSolomonDiv
  rw [rsLog_one, Nat.zero_add, Nat.mod_eq_of_lt (rsLog_lt y h2), rsExp_rsLog y h2 h1]

/-! ## Polynomial arithmetic over GF(256)

Polynomials are lists of coefficients with index 0 the highest-order term,
exactly as in the source. -/

/-- The inner accumulation of `QRCode::reedSolomonPolyMult` (qr.cc:565-578):
for a result index, XOR together `mult(poly1[p1index], poly2[index-p1index])`
for every in-range `p1index ≤ index`. -/
def polyMultCoeff (poly1 poly2 : List Nat) (index : Nat) : Nat :=
  (List.range (index + 1)).foldl
    (fun coeff p1index =>
      if p1index < poly1.length ∧ index - p1index < poly2.length then
        coeff ^^^ reedSolomonMult (poly1.getD p1index 0) (poly2.getD (index - p1index) 0)
      else coeff) 0

/-- `QRCode::reedSolomonPolyMult` (qr.cc:559-580): result length
`poly1.size() + poly2.size() - 1`, each coefficient the convolution sum. -/
def reedSolomonPolyMult (poly1 poly2 : List Nat) : List Nat :=
  (List.range (poly1.length + poly2.length - 1)).map (polyMultCoeff poly1 poly2)

/-- One iteration of the division loop of `QRCode::reedSolomonPolyDiv`
(qr.cc:588-613): if the leading coefficient is nonzero, XOR-subtract
`divisor · {factor}` (zero-padded to the remainder length, as the source's
`subtr` vector) and then erase the first entry; otherwise just erase it. -/
def polyDivStep (divisor remainder : List Nat) : List Nat :=
  if remainder.getD 0 0 ≠ 0 then
    let factor := reedSolomonDiv (remainder.getD 0 0) (divisor.getD 0 0)
    let product := reedSolomonPolyMult divisor [factor]
    let subtr := product ++ List.replicate (remainder.length - product.length) 0
    (List.zipWith (fun u v => u ^^^ v) remainder subtr).drop 1
  else remainder.drop 1

/-- The counted division loop: `for (count = 0; count < quotientLenth; ++count)`. -/
def polyDivLoop (divisor : List Nat) : Nat → List Nat → List Nat
  | 0, r => r
  | n + 1, r => polyDivLoop divisor n (polyDivStep divisor r)

/-- `QRCode::reedSolomonPolyDiv` (qr.cc:582-616): run the step
`dividend.size() - divisor.size() + 1` times starting from the dividend. -/
def reedSolomonPolyDiv (dividend divisor : List Nat) : List Nat :=
  polyDivLoop divisor (dividend.length - divisor.length + 1) dividend

/-- `QRCode::rsGeneratePoly` (qr.cc:618-627): start from `{1}` and multiply by
`{1, rsExp_.at(i)}` for `i = 0 .. degree-1`. -/
def rsGeneratePoly (degree : Nat) : List Nat :=
  (List.range degree).foldl (fun lastPoly i => reedSolomonPolyMult lastPoly [1, rsExp i]) [1]

/-- `QRCode::generateEDC` (qr.cc:479-491): pad the data with zeros up to
`codewords` entries and return the polynomial remainder modulo the generator
polynomial of degree `codewords - data.size()`. -/
def generateEDC (data : List Nat) (codewords : Nat) : List Nat :=
  let degree := codewords - data.length
  let messagePoly := data ++ List.replicate (codewords - data.length) 0
  reedSolomonPolyDiv messagePoly (rsGeneratePoly degree)

/-- Polynomial sum for the claim statement "p·g + r": with coefficient lists
highest-degree-first, the shorter polynomial is XOR-added aligned at the tail
(its coefficients are zero-extended at the high end). -/
def polyAdd (a b : List Nat) : List Nat :=
  List.zipWith (fun u v => u ^^^ v) a (List.replicate (a.length - b.length) 0 ++ b)

/-! ### Length behaviour of the division routine -/

theorem polyDivStep_length (divisor remainder : List Nat) :
    (polyDivStep divisor remainder).length = remainder.length - 1 := by
  unfold polyDivStep
  split
  · simp only [List.length_drop, List.length_zipWith, List.length_append,
      List.length_replicate]
    omega
  · simp [List.length_drop]

theorem polyDivLoop_length (divisor : List Nat) (n : Nat) (r : List Nat) :
    (polyDivLoop divisor n r).length = r.length - n := by
  induction n generalizing r with
  | zero => simp [polyDivLoop]
  | succ k ih => rw [polyDivLoop, ih, polyDivStep_length, Nat.sub_sub, Nat.add_comm]

theorem reedSolomonPolyDiv_length (dividend divisor : List Nat)
    (h1 : 1 ≤ divisor.length) (h2 : divisor.length ≤ dividend.length) :
    (reedSolomonPolyDiv dividend divisor).length = divisor.length - 1 := by
  unfold reedSolomonPolyDiv
  rw [polyDivLoop_length]
  omega

/-! ### `getD` toolkit -/

theorem list_ext_getD (a b : List Nat) (hlen : a.length = b.length)
    (h : ∀ i, i < a.length → a.getD i 0 = b.getD i 0) : a = b := by
  apply List.ext_getElem hlen
  intro n h1 h2
  have := h n h1
  rwa [List.getD_eq_getElem a 0 h1, List.getD_eq_getElem b 0 h2] at this

theorem getD_map_range (f : Nat → Nat) (n i : Nat) :
    ((List.range n).map f).getD i 0 = if i < n then f i else 0 := by
  split
  · next hi =>
    rw [List.getD_eq_getElem _ 0 (by simpa using hi)]
    simp
  · next hi => exact List.getD_eq_default _ 0 (by simpa using Nat.le_of_not_lt hi)

theorem getD_drop_one (l : List Nat) (i : Nat) :
    (l.drop 1).getD i 0 = l.getD (1 + i) 0 := by
  by_cases h : i < l.length - 1
  · rw [List.getD_eq_getElem _ 0 (by simpa using h),
      List.getD_eq_getElem _ 0 (by omega), List.getElem_drop]
  · rw [List.getD_eq_default _ 0 (by simp; omega), List.getD_eq_default _ 0 (by omega)]

theorem getD_zipWith_xor (a b : List Nat) (hlen : a.length = b.length) (i : Nat) :
    (List.zipWith (fun u v => u ^^^ v) a b).getD i 0 = a.getD i 0 ^^^ b.getD i 0 := by
  by_cases h : i < a.length
  · rw [List.getD_eq_getElem _ 0 (by simp; omega), List.getElem_zipWith,
      List.getD_eq_getElem _ 0 h, List.getD_eq_getElem _ 0 (by omega)]
  · rw [List.getD_eq_default _ 0 (by simp; omega), List.getD_eq_default _ 0 (by omega),
      List.getD_eq_default _ 0 (by omega)]
    simp

theorem getD_append_replicate_zero (l : List Nat) (k i : Nat) :
    (l ++ List.replicate k 0).getD i 0 = if i < l.length then l.getD i 0 else 0 := by
  split
  · next h =>
    rw [List.getD_eq_getElem _ 0 (by simp; omega),
      List.getElem_append_left h, List.getD_eq_getElem _ 0 h]
  · next h =>
    by_cases h2 : i < l.length + k
    · rw [List.getD_eq_getElem _ 0 (by simp; omega)]
      rw [List.getElem_append_right (by omega)]
      simp
    · exact List.getD_eq_default _ 0 (by simp; omega)

/-! ### XOR-sum view of the convolution -/

def xorSum (g : Nat → Nat) (n : Nat) : Nat :=
  (List.range n).foldl (fun a i => a ^^^ g i) 0

theorem foldl_xor_init (g : Nat → Nat) (l : List Nat) (a : Nat) :
    l.foldl (fun acc i => acc ^^^ g i) a = a ^^^ l.foldl (fun acc i => acc ^^^ g i) 0 := by
  induction l generalizing a with
  | nil => simp
  | cons x xs ih =>
    simp only [List.foldl_cons]
    rw [ih (a ^^^ g x), ih (0 ^^^ g x), Nat.zero_xor, Nat.xor_assoc]

theorem xorSum_succ_top (g : Nat → Nat) (n : Nat) :
    xorSum g (n + 1) = xorSum g n ^^^ g n := by
  unfold xorSum
  rw [List.range_succ, List.foldl_append, List.foldl_cons, List.foldl_nil]

theorem xorSum_shift (g : Nat → Nat) (n : Nat) :
    xorSum g (n + 1) = g 0 ^^^ xorSum (fun i => g (i + 1)) n := by
  unfold xorSum
  rw [List.range_succ_eq_map, List.foldl_cons, List.foldl_map, Nat.zero_xor]
  rw [show (fun (x : Nat) (y : Nat) => x ^^^ g (Nat.succ y)) =
    (fun (acc : Nat) (i : Nat) => acc ^^^ (fun j => g (j + 1)) i) from rfl]
  exact foldl_xor_init _ _ _

theorem xorSum_congr (g h : Nat → Nat) (n : Nat) (he : ∀ i, i < n → g i = h i) :
    xorSum g n = xorSum h n := by
  induction n with
  | zero => rfl
  | succ k ih =>
    rw [xorSum_succ_top, xorSum_succ_top, ih (fun i hi => he i (by omega)), he k (by omega)]

theorem xorSum_zero_fun (g : Nat → Nat) (n : Nat) (hz : ∀ i, i < n → g i = 0) :
    xorSum g n = 0 := by
  induction n with
  | zero => rfl
  | succ k ih =>
    rw [xorSum_succ_top, ih (fun i hi => hz i (by omega)), hz k (by omega)]
    simp

theorem polyMultCoeff_eq_xorSum (p q : List Nat) (index : Nat) :
    polyMultCoeff p q index =
      xorSum (fun i =>
        if i < p.length ∧ index - i < q.length then
          reedSolomonMult (p.getD i 0) (q.getD (index - i) 0)
        else 0) (index + 1) := by
  unfold polyMultCoeff xorSum
  have : (fun (coeff : Nat) (p1index : Nat) =>
      if p1index < p.length ∧ index - p1index < q.length then
        coeff ^^^ reedSolomonMult (p.getD p1index 0) (q.getD (index - p1index) 0)
      else coeff) =
      (fun (a : Nat) (i : Nat) => a ^^^
        (if i < p.length ∧ index - i < q.length then
          reedSolomonMult (p.getD i 0) (q.getD (index - i) 0)
        else 0)) := by
    funext a i
    split <;> simp
  rw [this]

theorem reedSolomonPolyMult_length (p q : List Nat) :
    (reedSolomonPolyMult p q).length = p.length + q.length - 1 := by
  simp [reedSolomonPolyMult]

theorem reedSolomonPolyMult_getD (p q : List Nat) (i : Nat) :
    (reedSolomonPolyMult p q).getD i 0 =
      if i < p.length + q.length - 1 then polyMultCoeff p q i else 0 := by
  unfold reedSolomonPolyMult
  exact getD_map_range _ _ _

theorem polyMultCoeff_nil (q : List Nat) (i : Nat) : polyMultCoeff [] q i = 0 := by
  rw [polyMultCoeff_eq_xorSum]
  exact xorSum_zero_fun _ _ (fun j _ => by simp)

theorem polyMultCoeff_cons (p0 : Nat) (p' q : List Nat) (m : Nat) :
    polyMultCoeff (p0 :: p') q (m + 1) =
      (if m + 1 < q.length then reedSolomonMult p0 (q.getD (m + 1) 0) else 0) ^^^
        polyMultCoeff p' q m := by
  rw [polyMultCoeff_eq_xorSum, polyMultCoeff_eq_xorSum, xorSum_shift]
  congr 1
  · simp
  · apply xorSum_congr
    intro i _
    simp only [List.length_cons, Nat.succ_sub_succ, List.getD_cons_succ,
      Nat.add_lt_add_iff_right]

theorem polyMultCoeff_zero (p0 : Nat) (p' q : List Nat) :
    polyMultCoeff (p0 :: p') q 0 =
      if 0 < q.length then reedSolomonMult p0 (q.getD 0 0) else 0 := by
  rw [polyMultCoeff_eq_xorSum]
  rw [show (0 : Nat) + 1 = 1 from rfl]
  rw [show (1 : Nat) = 0 + 1 from rfl, xorSum_succ_top]
  unfold xorSum
  simp

theorem polyMultCoeff_single (p : List Nat) (c : Nat) (index : Nat) :
    polyMultCoeff p [c] index =
      if index < p.length then reedSolomonMult (p.getD index 0) c else 0 := by
  rw [polyMultCoeff_eq_xorSum, xorSum_succ_top]
  rw [xorSum_zero_fun _ _ (fun i hi => by
    have : ¬ (index - i < 1) := by omega
    simp [this])]
  simp

/-! ### `polyAdd` facts -/

theorem polyAdd_length (a b : List Nat) (h : b.length ≤ a.length) :
    (polyAdd a b).length = a.length := by
  simp only [polyAdd, List.length_zipWith, List.length_append, List.length_replicate]
  omega

theorem polyAdd_getD (a b : List Nat) (h : b.length ≤ a.length) (i : Nat) :
    (polyAdd a b).getD i 0 =
      a.getD i 0 ^^^
        (if i < a.length - b.length then 0 else b.getD (i - (a.length - b.length)) 0) := by
  unfold polyAdd
  rw [getD_zipWith_xor _ _ (by simp; omega)]
  congr 1
  split
  · next hlt =>
    rw [List.getD_eq_getElem _ 0 (by simp; omega), List.getElem_append_left (by simpa using hlt)]
    simp
  · next hge =>
    by_cases h2 : i < a.length
    · rw [List.getD_eq_getElem _ 0 (by simp; omega),
        List.getElem_append_right (by simp; omega),
        List.getD_eq_getElem _ 0 (by omega)]
      simp
    · rw [List.getD_eq_default _ 0 (by simp; omega), List.getD_eq_default _ 0 (by omega)]

theorem reedSolomonPolyMult_nil (g : List Nat) :
    reedSolomonPolyMult [] g = List.replicate (g.length - 1) 0 := by
  apply list_ext_getD
  · rw [reedSolomonPolyMult_length]
    simp
  · intro i hi
    rw [reedSolomonPolyMult_getD]
    rw [List.getD_eq_getElem (List.replicate _ 0) 0 (by
      simpa using (by rw [reedSolomonPolyMult_length] at hi; simpa using hi))]
    rw [List.getElem_replicate]
    rw [reedSolomonPolyMult_length] at hi
    simp only [List.length_nil, Nat.zero_add] at hi ⊢
    rw [if_pos hi, polyMultCoeff_nil]

theorem zipWith_xor_zero_left (l : List Nat) (n : Nat) (h : l.length ≤ n) :
    List.zipWith (fun u v => u ^^^ v) (List.replicate n 0) l = l := by
  induction l generalizing n with
  | nil => simp
  | cons x xs ih =>
    obtain ⟨m, rfl⟩ : ∃ m, n = m + 1 := ⟨n - 1, by simp at h; omega⟩
    rw [List.replicate_succ, List.zipWith_cons_cons, Nat.zero_xor,
      ih m (by simp at h; omega)]

theorem polyAdd_replicate_zero (n : Nat) (r : List Nat) (h : r.length ≤ n) :
    polyAdd (List.replicate n 0) r = List.replicate (n - r.length) 0 ++ r := by
  unfold polyAdd
  rw [List.length_replicate]
  exact zipWith_xor_zero_left _ _ (by simp; omega)

theorem xor_xor_cancel (t c p : Nat) : ((t ^^^ c) ^^^ p) ^^^ t = c ^^^ p := by
  rw [Nat.xor_comm ((t ^^^ c) ^^^ p) t, ← Nat.xor_assoc, ← Nat.xor_assoc,
    Nat.xor_self, Nat.zero_xor]

/-! ### The division loop on a dividend of the form `p·g + r`, `g` monic -/

theorem pad_shift (L rl : Nat) (r : List Nat) (hrL : rl ≤ L) (i : Nat) (hrlen : rl = r.length) :
    (if i + 1 < L + 1 - rl then 0 else r.getD (i + 1 - (L + 1 - rl)) 0) =
      (if i < L - rl then 0 else r.getD (i - (L - rl)) 0) := by
  have h1 : L + 1 - rl = (L - rl) + 1 := by omega
  rw [h1]
  by_cases h2 : i < L - rl
  · rw [if_pos (by omega), if_pos h2]
  · rw [if_neg (by omega), if_neg h2]
    congr 1
    omega

theorem polyDivStep_muladd (gt : List Nat) (p0 : Nat) (p' r : List Nat)
    (hp0 : p0 < 256) (hr : r.length < gt.length + 1) :
    polyDivStep (1 :: gt) (polyAdd (reedSolomonPolyMult (p0 :: p') (1 :: gt)) r) =
      polyAdd (reedSolomonPolyMult p' (1 :: gt)) r := by
  have hMlen : (reedSolomonPolyMult (p0 :: p') (1 :: gt)).length =
      p'.length + gt.length + 1 := by
    rw [reedSolomonPolyMult_length, List.length_cons, List.length_cons]
    omega
  have hRlen : (reedSolomonPolyMult p' (1 :: gt)).length = p'.length + gt.length := by
    rw [reedSolomonPolyMult_length, List.length_cons]
    omega
  have hrM : r.length ≤ (reedSolomonPolyMult (p0 :: p') (1 :: gt)).length := by
    rw [hMlen]; omega
  have hrR : r.length ≤ (reedSolomonPolyMult p' (1 :: gt)).length := by
    rw [hRlen]; omega
  have hAlen : (polyAdd (reedSolomonPolyMult (p0 :: p') (1 :: gt)) r).length =
      p'.length + gt.length + 1 := by
    rw [polyAdd_length _ _ hrM, hMlen]
  have hhead : (polyAdd (reedSolomonPolyMult (p0 :: p') (1 :: gt)) r).getD 0 0 =
      reedSolomonMult p0 1 := by
    rw [polyAdd_getD _ _ hrM, hMlen, if_pos (by omega), Nat.xor_zero,
      reedSolomonPolyMult_getD, if_pos (by simp), polyMultCoeff_zero,
      if_pos (by simp), List.getD_cons_zero]
  by_cases hz : p0 = 0
  · -- zero leading quotient coefficient: the loop body just drops the head
    subst hz
    simp only [polyDivStep]
    rw [if_neg (by rw [hhead, reedSolomonMult_zero_left]; simp)]
    apply list_ext_getD
    · rw [List.length_drop, hAlen, polyAdd_length _ _ hrR, hRlen]
      omega
    · intro i hi
      rw [List.length_drop, hAlen] at hi
      rw [getD_drop_one, show (1 : Nat) + i = i + 1 from Nat.add_comm 1 i,
        polyAdd_getD _ _ hrM, polyAdd_getD _ _ hrR, hMlen, hRlen,
        reedSolomonPolyMult_getD, reedSolomonPolyMult_getD]
      simp only [List.length_cons]
      rw [if_pos (show i + 1 < p'.length + 1 + (gt.length + 1) - 1 by omega),
        if_pos (show i < p'.length + (gt.length + 1) - 1 by omega),
        polyMultCoeff_cons, reedSolomonMult_zero_left, ite_self, Nat.zero_xor,
        pad_shift (p'.length + gt.length) r.length r (by omega) i rfl]
  · -- nonzero leading coefficient: the subtracted multiple cancels against it
    have hp0pos : 0 < p0 := Nat.pos_of_ne_zero hz
    simp only [polyDivStep]
    rw [if_pos (by rw [hhead, reedSolomonMult_one_right p0 hp0 hp0pos]; exact hz)]
    rw [hhead, reedSolomonMult_one_right p0 hp0 hp0pos, List.getD_cons_zero,
      reedSolomonDiv_one_right p0 hp0 hp0pos]
    apply list_ext_getD
    · rw [List.length_drop, List.length_zipWith, List.length_append,
        List.length_replicate, reedSolomonPolyMult_length, hAlen,
        polyAdd_length _ _ hrR, hRlen]
      simp only [List.length_cons, List.length_nil, Nat.zero_add]
      omega
    · intro i hi
      rw [List.length_drop, List.length_zipWith, List.length_append,
        List.length_replicate, reedSolomonPolyMult_length, hAlen] at hi
      simp only [List.length_cons, List.length_nil, Nat.zero_add] at hi
      rw [getD_drop_one,
        getD_zipWith_xor _ _ (by
          rw [List.length_append, List.length_replicate, reedSolomonPolyMult_length,
            hAlen]
          simp only [List.length_cons, List.length_nil, Nat.zero_add]
          omega),
        show (1 : Nat) + i = i + 1 from Nat.add_comm 1 i,
        getD_append_replicate_zero, reedSolomonPolyMult_length,
        reedSolomonPolyMult_getD (1 :: gt) [p0], polyMultCoeff_single,
        polyAdd_getD _ _ hrM, polyAdd_getD _ _ hrR, hMlen, hRlen,
        reedSolomonPolyMult_getD, reedSolomonPolyMult_getD]
      simp only [List.length_cons, List.length_nil, Nat.zero_add]
      rw [if_pos (show i + 1 < p'.length + 1 + (gt.length + 1) - 1 by omega),
        if_pos (show i < p'.length + (gt.length + 1) - 1 by omega),
        polyMultCoeff_cons,
        pad_shift (p'.length + gt.length) r.length r (by omega) i rfl]
      simp only [List.length_cons, List.length_nil, Nat.zero_add, Nat.add_sub_cancel]
      by_cases hc : i + 1 < gt.length + 1
      · simp only [if_pos hc]
        rw [reedSolomonMult_comm ((1 :: gt).getD (i + 1) 0) p0, xor_xor_cancel]
      · simp only [if_neg hc]
        rw [Nat.zero_xor, Nat.xor_zero]

theorem polyDivLoop_muladd (gt : List Nat) (p r : List Nat)
    (hp : ∀ x ∈ p, x < 256) (hr : r.length < gt.length + 1) :
    polyDivLoop (1 :: gt) p.length (polyAdd (reedSolomonPolyMult p (1 :: gt)) r) =
      List.replicate (gt.length - r.length) 0 ++ r := by
  induction p with
  | nil =>
    rw [List.length_nil, polyDivLoop, reedSolomonPolyMult_nil, List.length_cons,
      Nat.add_sub_cancel, polyAdd_replicate_zero _ _ (by omega)]
  | cons p0 p' ih =>
    rw [List.length_cons, polyDivLoop,
      polyDivStep_muladd gt p0 p' r (hp p0 (by simp)) hr,
      ih (fun x hx => hp x (by simp [hx]))]

/-- C3 (amended): for every dividend `p` and divisor `g` over GF(256) with
`len(p) ≥ len(g) ≥ 1`, the polynomial remainder routine returns a result of
length `len(g) - 1`; and when `g` is monic (leading coefficient 1, which holds
for every generator polynomial the program divides by), for every `r` with
`len(r) < len(g)` the remainder of `p·g + r` by `g` equals `r` left-padded with
zeros to length `len(g) - 1`.  (The unamended claim, for arbitrary `g`, is
refuted by `C3_remainder_cex` below: `reedSolomonDiv` adds discrete logs
instead of subtracting them, so the quotient factor is wrong whenever the
leading coefficient of `g` is not 1.) -/
theorem C3_remainder_theorem (p g r : List Nat)
    (hg1 : 1 ≤ g.length) (hgp : g.length ≤ p.length) (hgm : g.getD 0 0 = 1)
    (hp : ∀ x ∈ p, x < 256) (hr : r.length < g.length) :
    (∀ d : List Nat, g.length ≤ d.length →
      (reedSolomonPolyDiv d g).length = g.length - 1) ∧
    reedSolomonPolyDiv (polyAdd (reedSolomonPolyMult p g) r) g =
      List.replicate (g.length - 1 - r.length) 0 ++ r := by
  obtain ⟨g0, gt, rfl⟩ : ∃ g0 gt, g = g0 :: gt := by
    cases g with
    | nil => simp at hg1
    | cons a l => exact ⟨a, l, rfl⟩
  have hg0 : g0 = 1 := by simpa using hgm
  subst hg0
  refine ⟨fun d hd => reedSolomonPolyDiv_length d _ hg1 hd, ?_⟩
  have hplen : 1 ≤ p.length := le_trans hg1 hgp
  have hMlen : (reedSolomonPolyMult p (1 :: gt)).length = p.length + gt.length := by
    rw [reedSolomonPolyMult_length, List.length_cons]
    omega
  have hrgt : r.length < gt.length + 1 := by simpa using hr
  unfold reedSolomonPolyDiv
  rw [polyAdd_length _ _ (by rw [hMlen]; omega), hMlen, List.length_cons,
    show p.length + gt.length - (gt.length + 1) + 1 = p.length from by omega,
    polyDivLoop_muladd gt p r hp hrgt,
    show gt.length + 1 - 1 - r.length = gt.length - r.length from by omega]

/-- Witness for C3: dividing `(x+3)·(x+1) + 7` by the monic `x + 1`
(coefficient lists `[2,3]·[1,1] + [7]` and `[1,1]`) returns exactly `[7]`. -/
theorem C3_remainder_theorem_witness :
    reedSolomonPolyDiv (polyAdd (reedSolomonPolyMult [2, 3] [1, 1]) [7]) [1, 1] = [7] := by
  have h := (C3_remainder_theorem [2, 3] [1, 1] [7] (by decide) (by decide) (by decide)
    (by decide) (by decide)).2
  simpa using h

/-- Counterexample to C3 as stated: with the non-monic divisor `g = [2,1]`,
`p = [1,0]` and `r = [1]` (all lengths as the claim requires), the routine does
not return `r`; and even for a monic divisor, a remainder shorter than
`len(g) - 1` comes back zero-padded rather than equal to `r` on the nose. -/
theorem C3_remainder_cex :
    reedSolomonPolyDiv (polyAdd (reedSolomonPolyMult [1, 0] [2, 1]) [1]) [2, 1] ≠ [1] ∧
    reedSolomonPolyDiv (polyAdd (reedSolomonPolyMult [1, 0, 0] [1, 0, 0]) [5]) [1, 0, 0] ≠ [5] := by
  decide

/-- C4: for all nonzero GF(256) elements `x` and `y` (with the log/antilog
tables generated), `multiply(x, divide(1, y)) = divide(x, y)`.  This holds in
the source because `reedSolomonDiv` adds logarithms, making `divide(1, y) = y`
and `divide(x, y) = multiply(x, y)` on nonzero arguments. -/
theorem C4_mult_div_roundtrip (x y : Nat) (hx1 : 0 < x) (hx2 : x < 256)
    (hy1 : 0 < y) (hy2 : y < 256) :
    reedSolomonMult x (reedSolomonDiv 1 y) = reedSolomonDiv x y := by
  rw [reedSolomonDiv_one_left y hy2 hy1]
  unfold reedSolomonMult reedSolomonDiv
  rw [if_pos ⟨Nat.pos_iff_ne_zero.mp hx1, Nat.pos_iff_ne_zero.mp hy1⟩]

/-- Witness for C4 at `x = 3`, `y = 7`. -/
theorem C4_mult_div_roundtrip_witness :
    reedSolomonMult 3 (reedSolomonDiv 1 7) = reedSolomonDiv 3 7 :=
  C4_mult_div_roundtrip 3 7 (by decide) (by decide) (by decide) (by decide)

/-! ## Encoding records and mode classification (qr.h:707-725, qr.cc:8-29, 67-77, 150-181)

A `char` of the input `std::string` is modelled as its byte value in `[0,256)`.
The C++ `char` is signed on the reference platforms; for bytes in `[0x80,0xFF]`
the signed comparisons in the classifiers reject the character from every
class, exactly as the byte-value model does, so the classification outcome
agrees for all byte values. -/

structure Encoding where
  mode : Nat
  v1to9 : Nat
  v10to26 : Nat
  v27to40 : Nat
  deriving DecidableEq

/-- `QRCode::Encoding::getBitsPerChar` (qr.cc:12-22); the `throw` on an invalid
version is modelled as `none`. -/
def Encoding.getBitsPerChar (e : Encoding) (ver : Nat) : Option Nat :=
  if 0 < ver ∧ ver < 10 then some e.v1to9
  else if 9 < ver ∧ ver < 27 then some e.v10to26
  else if 26 < ver ∧ ver < 41 then some e.v27to40
  else none

def Encoding.kNumeric : Encoding := ⟨1, 10, 12, 14⟩

def Encoding.kAlpha : Encoding := ⟨2, 9, 11, 13⟩

def Encoding.kByte : Encoding := ⟨4, 8, 16, 16⟩

def Encoding.kEci : Encoding := ⟨7, 0, 0, 0⟩

def Encoding.kKanji : Encoding := ⟨8, 8, 10, 12⟩

/-- The 45-character alphanumeric alphabet `kAlphanumericChar_` (qr.cc:665). -/
def kAlphanumericChar : List Nat :=
  "0123456789ABCDEFGHIJKLMNOPQRSTUVWXYZ $%*+-./:".toList.map Char.toNat

/-- `QRCode::isNumeric` (qr.cc:150-157): every char in `['0','9']`. -/
def isNumeric (text : List Nat) : Bool :=
  text.all fun ch => !(decide (ch < 48) || decide (57 < ch))

/-- `QRCode::isAlphanumeric` (qr.cc:159-166): every char occurs in the alphabet. -/
def isAlphanumeric (text : List Nat) : Bool :=
  text.all fun ch => kAlphanumericChar.contains ch

/-- `QRCode::isByte` (qr.cc:169-176): every char in `[' ','~']` = `[0x20,0x7E]`. -/
def isByte (text : List Nat) : Bool :=
  text.all fun ch => !(decide (ch < 32) || decide (126 < ch))

/-- `QRCode::isKanji` (qr.cc:179-181): unconditionally false. -/
def isKanji (_text : List Nat) : Bool := false

/-- `QRCode::determineEncoding` (qr.cc:67-77).  When no classifier matches, the
C++ leaves the `kEncoding_` pointer uninitialised (it neither assigns it nor
throws), which the model renders as `none`. -/
def determineEncoding (text : List Nat) : Option Encoding :=
  if isNumeric text then some Encoding.kNumeric
  else if isAlphanumeric text then some Encoding.kAlpha
  else if isByte text then some Encoding.kByte
  else if isKanji text then some Encoding.kKanji
  else none

/-! ## Capacity tables and version selection (qr.cc:100-148, 183-197, 670-686) -/

/-- `kEC_codewords_per_block_` (qr.cc:670-677), rows Low/Medium/Quartile/High,
index 0 of each row the `-1` placeholder. -/
def kECCodewordsPerBlock : List (List Int) := [
  [-1, 7, 10, 15, 20, 26, 18, 20, 24, 30, 18, 20, 24, 26, 30, 22, 24, 28, 30, 28, 28, 28, 28, 30, 30, 26, 28, 30, 30, 30, 30, 30, 30, 30, 30, 30, 30, 30, 30, 30, 30],
  [-1, 10, 16, 26, 18, 24, 16, 18, 22, 22, 26, 30, 22, 22, 24, 24, 28, 28, 26, 26, 26, 26, 28, 28, 28, 28, 28, 28, 28, 28, 28, 28, 28, 28, 28, 28, 28, 28, 28, 28, 28],
  [-1, 13, 22, 18, 26, 18, 24, 18, 22, 20, 24, 28, 26, 24, 20, 30, 24, 28, 28, 26, 30, 28, 30, 30, 30, 30, 28, 30, 30, 30, 30, 30, 30, 30, 30, 30, 30, 30, 30, 30, 30],
  [-1, 17, 28, 22, 16, 22, 28, 26, 26, 24, 28, 24, 28, 22, 24, 24, 30, 28, 28, 26, 28, 30, 24, 30, 30, 30, 30, 30, 30, 30, 30, 30, 30, 30, 30, 30, 30, 30, 30, 30, 30]]

/-- `kErr_corr_blocks_` (qr.cc:679-686). -/
def kErrCorrBlocks : List (List Int) := [
  [-1, 1, 1, 1, 1, 1, 2, 2, 2, 2, 4, 4, 4, 4, 4, 6, 6, 6, 6, 7, 8, 8, 9, 9, 10, 12, 12, 12, 13, 14, 15, 16, 17, 18, 19, 19, 20, 21, 22, 24, 25],
  [-1, 1, 1, 1, 2, 2, 4, 4, 4, 5, 5, 5, 8, 9, 9, 10, 10, 11, 13, 14, 16, 17, 17, 18, 20, 21, 23, 25, 26, 28, 29, 31, 33, 35, 37, 38, 40, 43, 45, 47, 49],
  [-1, 1, 1, 2, 2, 4, 4, 6, 6, 8, 8, 8, 10, 12, 16, 12, 17, 16, 18, 21, 20, 23, 23, 25, 27, 29, 34, 34, 35, 38, 40, 43, 45, 48, 51, 53, 56, 59, 62, 65, 68],
  [-1, 1, 1, 2, 4, 4, 4, 5, 6, 8, 8, 11, 11, 16, 16, 18, 16, 19, 21, 25, 25, 25, 34, 30, 32, 35, 37, 40, 42, 45, 48, 51, 54, 57, 60, 63, 66, 70, 74, 77, 81]]

/-- `kEC_codewords_per_block_[lvl][ver]` as an integer. -/
def eccPerBlockI (lvl ver : Nat) : Int := (kECCodewordsPerBlock.getD lvl []).getD ver (-1)

/-- `kErr_corr_blocks_[lvl][ver]` as an integer. -/
def errCorrBlocksI (lvl ver : Nat) : Int := (kErrCorrBlocks.getD lvl []).getD ver (-1)

/-- `QRCode::getTotalModules` (qr.cc:101-110).  The C++ computes the `v ≥ 2`
branch in `double` via `pow` and truncates on return; for these integral
magnitudes the value is exact, so plain integer arithmetic is faithful. -/
def getTotalModules (version : Nat) : Int :=
  if version = 1 then 21 * 21 - 3 * 8 * 8 - 2 * 15 - 1 - 2 * 5
  else
    let alignBlocks : Int := (version / 7 : Nat) + 2
    ((version : Int) * 4 + 17) ^ 2 - 3 * 8 * 8 - (alignBlocks ^ 2 - 3) * 5 * 5
      - 2 * ((version : Int) * 4 + 1) + (alignBlocks - 2) * 5 * 2 - 2 * 15 - 1
      - (if version > 6 then 2 * 3 * 6 else 0)

/-- `QRCode::getTotalCodewords` (qr.cc:113-115); `>> 3` on the nonnegative
module count is division by 8 (`getTotalModules_nonneg` below). -/
def getTotalCodewords (version lvl : Nat) : Int :=
  getTotalModules version / 8 - errCorrBlocksI lvl version * eccPerBlockI lvl version

theorem getTotalModules_nonneg :
    ∀ v : Nat, 1 ≤ v → v ≤ 40 → 0 ≤ getTotalModules v := by decide

/-- `QRCode::numericCapacity` (qr.cc:183-185); C `int` division truncates. -/
def numericCapacity (bits : Int) : Int :=
  bits.tdiv 10 * 3 +
    (if bits.tmod 10 > 6 then 2 else if bits.tmod 10 > 3 then 1 else 0)

/-- `QRCode::alphanumbericCapacity` (qr.cc:187-189). -/
def alphanumbericCapacity (bits : Int) : Int :=
  bits.tdiv 11 * 2 + (if bits.tmod 11 > 5 then 1 else 0)

/-- `QRCode::byteCapacity` (qr.cc:191-193): arithmetic shift `>> 3`, i.e.
floor division by 8 (Euclidean `/` agrees since the divisor is positive). -/
def byteCapacity (bits : Int) : Int := bits / 8

/-- `QRCode::kanjiCapacity` (qr.cc:195-197). -/
def kanjiCapacity (bits : Int) : Int := bits.tdiv 13

/-- `QRCode::getCapacity` (qr.cc:118-132); the throws for an invalid version or
encoding mode are modelled as `none`. -/
def getCapacity (enc : Encoding) (version lvl : Nat) : Option Int :=
  (enc.getBitsPerChar version).bind fun bitsPerChar =>
    let dataCodewords := getTotalCodewords version lvl
    let availableBits := dataCodewords * 8 - bitsPerChar - 4
    match enc.mode with
    | 1 => some (numericCapacity availableBits)
    | 2 => some (alphanumbericCapacity availableBits)
    | 4 => some (byteCapacity availableBits)
    | 7 => some (byteCapacity availableBits)
    | 8 => some (kanjiCapacity availableBits)
    | _ => none

/-- The ECC levels scanned by the inner loop of
`QRCode::setVersionAndErrorLevel`: `j = High = 3` down to `minIdx`. -/
def levelsDesc (minIdx : Nat) : List Nat := (List.range (4 - minIdx)).map (fun k => 3 - k)

/-- The body of the inner loop of `QRCode::setVersionAndErrorLevel`
(qr.cc:139-144): accept `(v, j)` when `getCapacity(v, j) ≥ length`. -/
def levelFit (enc : Encoding) (length : Int) (v j : Nat) : Option (Nat × Nat) :=
  match getCapacity enc v j with
  | some capacity => if capacity ≥ length then some (v, j) else none
  | none => none

/-- `QRCode::setVersionAndErrorLevel` (qr.cc:136-148): scan versions 1..40, and
within each, level indices High = 3 down to the requested minimum; return the
first combination whose capacity is at least the text length (`none` models the
`String too long!` throw).  The level is the enum index (Low = 0 .. High = 3). -/
def setVersionAndErrorLevel (enc : Encoding) (length : Int) (minIdx : Nat) :
    Option (Nat × Nat) :=
  ((List.range 40).map (fun k => k + 1)).findSome? fun v =>
    (levelsDesc minIdx).findSome? (levelFit enc length v)

/-- Does the capacity at `(v, j)` admit an input of the given length?  (The
decidable mirror of "getCapacity succeeds and is at least the length".) -/
def fitsB (enc : Encoding) (length : Int) (v j : Nat) : Bool :=
  match getCapacity enc v j with
  | some capacity => decide (length ≤ capacity)
  | none => false

theorem levelFit_eq_none_iff (enc : Encoding) (length : Int) (v j : Nat) :
    levelFit enc length v j = none ↔ fitsB enc length v j = false := by
  unfold levelFit fitsB
  cases hc : getCapacity enc v j with
  | none => simp
  | some c =>
    by_cases hcl : length ≤ c
    · simp [hcl]
    · simp [hcl]

theorem levelFit_eq_some (enc : Encoding) (length : Int) (v j : Nat)
    (p : Nat × Nat) (h : levelFit enc length v j = some p) :
    p = (v, j) ∧ fitsB enc length v j = true := by
  unfold levelFit at h
  unfold fitsB
  cases hc : getCapacity enc v j with
  | none => rw [hc] at h; simp at h
  | some c =>
    rw [hc] at h
    by_cases hcl : length ≤ c
    · refine ⟨?_, by simp [hcl]⟩
      have h2 : some (v, j) = some p := by simpa [hcl] using h
      exact (Option.some_inj.mp h2).symm
    · exfalso
      simpa [hcl] using h

/-- First-hit characterisation of `List.findSome?`: a successful search has a
hit index before which every element maps to `none`. -/
theorem findSome?_some_first {α β : Type} (L : List α) (f : α → Option β) (b : β)
    (h : L.findSome? f = some b) :
    ∃ i, ∃ hi : i < L.length, f (L.get ⟨i, hi⟩) = some b ∧
      ∀ k, (hk : k < L.length) → k < i → f (L.get ⟨k, hk⟩) = none := by
  induction L with
  | nil => simp at h
  | cons a as ih =>
    rw [List.findSome?_cons] at h
    cases hfa : f a with
    | some c =>
      rw [hfa] at h
      refine ⟨0, by simp, by simpa using hfa.trans h, ?_⟩
      intro k hk hk0
      omega
    | none =>
      rw [hfa] at h
      obtain ⟨i, hi, h1, h2⟩ := ih h
      refine ⟨i + 1, by simpa using Nat.succ_lt_succ hi, by simpa using h1, ?_⟩
      intro k hk hki
      cases k with
      | zero => simpa using hfa
      | succ n => simpa using h2 n (by simpa using Nat.lt_of_succ_lt_succ hk) (by omega)

theorem mem_levelsDesc (m j : Nat) (hm : m ≤ 3) : j ∈ levelsDesc m ↔ m ≤ j ∧ j ≤ 3 := by
  unfold levelsDesc
  simp only [List.mem_map, List.mem_range]
  constructor
  · rintro ⟨k, hk, rfl⟩
    omega
  · rintro ⟨h1, h2⟩
    exact ⟨3 - j, by omega, by omega⟩

theorem inner_none_iff (enc : Encoding) (length : Int) (minIdx v : Nat) (hm : minIdx ≤ 3) :
    (levelsDesc minIdx).findSome? (levelFit enc length v) = none ↔
      ∀ j, minIdx ≤ j → j ≤ 3 → fitsB enc length v j = false := by
  rw [List.findSome?_eq_none_iff]
  constructor
  · intro h j hj1 hj2
    exact (levelFit_eq_none_iff _ _ _ _).mp (h j ((mem_levelsDesc minIdx j hm).mpr ⟨hj1, hj2⟩))
  · intro h j hj
    obtain ⟨hj1, hj2⟩ := (mem_levelsDesc minIdx j hm).mp hj
    exact (levelFit_eq_none_iff _ _ _ _).mpr (h j hj1 hj2)

theorem inner_some_char (enc : Encoding) (length : Int) (minIdx v : Nat) (hm : minIdx ≤ 3)
    (v0 j0 : Nat)
    (h : (levelsDesc minIdx).findSome? (levelFit enc length v) = some (v0, j0)) :
    v0 = v ∧ minIdx ≤ j0 ∧ j0 ≤ 3 ∧ fitsB enc length v j0 = true ∧
      ∀ j', minIdx ≤ j' → j' ≤ 3 → j0 < j' → fitsB enc length v j' = false := by
  obtain ⟨i, hi, h1, h2⟩ := findSome?_some_first _ _ _ h
  have hlen : (levelsDesc minIdx).length = 4 - minIdx := by simp [levelsDesc]
  have hget : (levelsDesc minIdx).get ⟨i, hi⟩ = 3 - i := by simp [levelsDesc]
  rw [hget] at h1
  obtain ⟨hp, hfit⟩ := levelFit_eq_some _ _ _ _ _ h1
  obtain ⟨rfl, rfl⟩ : v0 = v ∧ j0 = 3 - i := by
    constructor <;> simp [Prod.ext_iff] at hp <;> omega
  rw [hlen] at hi
  refine ⟨rfl, by omega, by omega, hfit, ?_⟩
  intro j' hj1 hj2 hgt
  have hk := h2 (3 - j') (by rw [hlen]; omega) (by omega)
  have hgetk : (levelsDesc minIdx).get ⟨3 - j', by rw [hlen]; omega⟩ = j' := by
    simp [levelsDesc]
    omega
  rw [hgetk] at hk
  exact (levelFit_eq_none_iff _ _ _ _).mp hk

/-- C1: for every supported mode record and minimum ECC level index, the
selector returns the first (version, level) pair - versions 1..40 in increasing
order, levels High = 3 down to the minimum within each version - whose
character capacity is at least the input length, and returns `none` (the
source throws "String too long!") exactly when no pair in that range fits. -/
theorem C1_version_selection (enc : Encoding) (length : Int) (minIdx : Nat)
    (hm : minIdx ≤ 3) :
    (∀ v j, setVersionAndErrorLevel enc length minIdx = some (v, j) →
      (1 ≤ v ∧ v ≤ 40 ∧ minIdx ≤ j ∧ j ≤ 3 ∧ fitsB enc length v j = true ∧
        ∀ v' j', 1 ≤ v' → v' ≤ 40 → minIdx ≤ j' → j' ≤ 3 →
          (v' < v ∨ (v' = v ∧ j < j')) → fitsB enc length v' j' = false)) ∧
    (setVersionAndErrorLevel enc length minIdx = none ↔
      ∀ v j, 1 ≤ v → v ≤ 40 → minIdx ≤ j → j ≤ 3 → fitsB enc length v j = false) := by
  constructor
  · intro v j hsv
    unfold setVersionAndErrorLevel at hsv
    obtain ⟨i, hi, h1, h2⟩ := findSome?_some_first _ _ _ hsv
    have hilen : i < 40 := by simpa using hi
    have hgeti : ((List.range 40).map (fun k => k + 1)).get ⟨i, hi⟩ = i + 1 := by simp
    rw [hgeti] at h1
    obtain ⟨hveq, hj1, hj2, hfit, hlater⟩ := inner_some_char enc length minIdx (i + 1) hm v j h1
    subst hveq
    refine ⟨by omega, by omega, hj1, hj2, hfit, ?_⟩
    intro v' j' hv1 hv2 hj1' hj2' hord
    rcases hord with hlt | ⟨heq, hgt⟩
    · have hk := h2 (v' - 1) (by simpa using (by omega : v' - 1 < 40)) (by omega)
      have hgetk : ((List.range 40).map (fun k => k + 1)).get
          ⟨v' - 1, by simpa using (by omega : v' - 1 < 40)⟩ = v' := by
        simp
        omega
      rw [hgetk] at hk
      exact (inner_none_iff enc length minIdx v' hm).mp hk j' hj1' hj2'
    · subst heq
      exact hlater j' hj1' hj2' hgt
  · unfold setVersionAndErrorLevel
    rw [List.findSome?_eq_none_iff]
    constructor
    · intro h v j hv1 hv2 hj1 hj2
      have hv : v ∈ (List.range 40).map (fun k => k + 1) := by
        simp only [List.mem_map, List.mem_range]
        exact ⟨v - 1, by omega, by omega⟩
      exact (inner_none_iff enc length minIdx v hm).mp (h v hv) j hj1 hj2
    · intro h x hx
      simp only [List.mem_map, List.mem_range] at hx
      obtain ⟨k, hk, rfl⟩ := hx
      exact (inner_none_iff enc length minIdx (k + 1) hm).mpr
        (fun j hj1 hj2 => h (k + 1) j (by omega) (by omega) hj1 hj2)

/-- Witness for C1: a 5-character Byte-mode input at minimum level Low selects
version 1 at level High (index 3), and that slot indeed fits. -/
theorem C1_version_selection_witness :
    setVersionAndErrorLevel Encoding.kByte 5 0 = some (1, 3) ∧
      fitsB Encoding.kByte 5 1 3 = true := by
  refine ⟨by decide, ?_⟩
  have h := ((C1_version_selection Encoding.kByte 5 0 (by decide)).1 1 3 (by decide))
  exact h.2.2.2.2.1

/-- C6: classification tries Numeric (all ASCII digits), then Alphanumeric
(all in the 45-character set), then Byte (all in `[0x20,0x7E]`), in that order.
At an input outside all three (here the single byte `0x0A`, a newline) the
source's `determineEncoding` matches no branch (`isKanji` is constantly false)
and - contrary to the claim - raises no error: it leaves `kEncoding_`
uninitialised, and the constructor then dereferences that indeterminate
pointer (undefined behaviour).  The model renders the missing assignment as
`none`; this theorem evaluates the classifiers at the failing input. -/
theorem C6_classification_at_failing_input :
    determineEncoding [10] = none ∧ isNumeric [10] = false ∧
      isAlphanumeric [10] = false ∧ isByte [10] = false ∧ isKanji [10] = false := by
  decide

/-! ## Block partition for error correction - `QRCode::addEDCInterleave` (qr.cc:493-535) -/

/-- `kErr_corr_blocks_[lvl][ver]` as a count (positive for every valid index,
see `errCorrBlocksN_pos`). -/
def errCorrBlocksN (lvl ver : Nat) : Nat := (errCorrBlocksI lvl ver).toNat

/-- `kEC_codewords_per_block_[lvl][ver]` as a count. -/
def eccPerBlockN (lvl ver : Nat) : Nat := (eccPerBlockI lvl ver).toNat

/-- `int total_codewords = getTotalModules(version_) >> 3` (qr.cc:500); the
module count is nonnegative (`getTotalModules_nonneg`), so the arithmetic
shift is division by 8. -/
def totalCodewords (ver : Nat) : Nat := (getTotalModules ver).toNat / 8

/-- `num_short_blocks = num_blocks - total_codewords % num_blocks` (qr.cc:501). -/
def numShortBlocks (lvl ver : Nat) : Nat :=
  errCorrBlocksN lvl ver - totalCodewords ver % errCorrBlocksN lvl ver

/-- `short_block_len = total_codewords / num_blocks` (qr.cc:502). -/
def shortBlockLen (lvl ver : Nat) : Nat := totalCodewords ver / errCorrBlocksN lvl ver

/-- The data-codeword count taken for block `i` (qr.cc:511):
`short_block_len - ECC_per_block + (i < num_short_blocks ? 0 : 1)`. -/
def blockLens (lvl ver : Nat) : List Nat :=
  (List.range (errCorrBlocksN lvl ver)).map fun i =>
    shortBlockLen lvl ver - eccPerBlockN lvl ver +
      (if i < numShortBlocks lvl ver then 0 else 1)

/-- Sequential split of the data stream into consecutive runs of the given
lengths, as the loop at qr.cc:506-523 does with its running index `j`. -/
def splitBlocksAux : List Nat → List Nat → List (List Nat)
  | _data, [] => []
  | data, L :: rest => data.take L :: splitBlocksAux (data.drop L) rest

/-- The data-block partition performed by `QRCode::addEDCInterleave`. -/
def splitDataBlocks (lvl ver : Nat) (data : List Nat) : List (List Nat) :=
  splitBlocksAux data (blockLens lvl ver)

theorem splitBlocksAux_lengths (lens : List Nat) :
    ∀ data : List Nat, data.length = lens.sum →
      (splitBlocksAux data lens).map List.length = lens := by
  induction lens with
  | nil => intro data _; rfl
  | cons L rest ih =>
    intro data hd
    rw [List.sum_cons] at hd
    simp only [splitBlocksAux, List.map_cons]
    congr 1
    · rw [List.length_take]
      omega
    · exact ih _ (by rw [List.length_drop]; omega)

theorem sum_const_ite (a ns : Nat) :
    ∀ B : Nat, ((List.range B).map (fun i => a + if i < ns then 0 else 1)).sum =
      B * a + (B - min ns B) := by
  intro B
  induction B with
  | zero => simp
  | succ n ih =>
    rw [List.range_succ, List.map_append, List.sum_append, ih]
    simp only [List.map_cons, List.map_nil, List.sum_cons, List.sum_nil]
    by_cases hn : n < ns
    · rw [if_pos hn]
      have h1 : min ns n = n := by omega
      have h2 : min ns (n + 1) = n + 1 := by omega
      rw [h1, h2, Nat.succ_mul]
      omega
    · rw [if_neg hn]
      have h1 : min ns n = ns := by omega
      have h2 : min ns (n + 1) = ns := by omega
      rw [h1, h2, Nat.succ_mul]
      omega

theorem errCorrBlocksN_pos :
    ∀ lvl, lvl ≤ 3 → ∀ ver, 1 ≤ ver → ver ≤ 40 → 1 ≤ errCorrBlocksN lvl ver := by
  decide

theorem eccPerBlock_le_shortLen :
    ∀ lvl, lvl ≤ 3 → ∀ ver, 1 ≤ ver → ver ≤ 40 →
      eccPerBlockN lvl ver ≤ shortBlockLen lvl ver := by
  decide

theorem blockLens_sum (lvl ver : Nat) (hl : lvl ≤ 3) (hv1 : 1 ≤ ver) (hv2 : ver ≤ 40) :
    (blockLens lvl ver).sum =
      totalCodewords ver - errCorrBlocksN lvl ver * eccPerBlockN lvl ver := by
  have hB := errCorrBlocksN_pos lvl hl ver hv1 hv2
  have hE := eccPerBlock_le_shortLen lvl hl ver hv1 hv2
  unfold blockLens
  rw [sum_const_ite]
  set B := errCorrBlocksN lvl ver with hBdef
  set T := totalCodewords ver with hTdef
  set E := eccPerBlockN lvl ver with hEdef
  have hns : numShortBlocks lvl ver = B - T % B := rfl
  have hs : shortBlockLen lvl ver = T / B := rfl
  rw [hns, hs]
  have hmod : T % B < B := Nat.mod_lt _ (by omega)
  have hmin : min (B - T % B) B = B - T % B := by omega
  rw [hmin]
  have hdm : B * (T / B) + T % B = T := Nat.div_add_mod T B
  have hd : T / B = (T / B - E) + E := by omega
  have hmul : B * (T / B) = B * (T / B - E) + B * E := by
    conv_lhs => rw [hd]
    rw [Nat.mul_add]
  generalize hu : B * (T / B - E) = u at *
  generalize hw : B * E = w at *
  omega

/-- C2 (amended): for every valid (version, level), splitting the packed data
codewords into `B = blocks[level][version]` blocks gives every block a data
length of `short_len - E` or `short_len - E + 1` (with
`short_len = ⌊total_codewords / B⌋` and `E` the EC codewords per block), and it
is the FIRST `B - (total_codewords mod B)` blocks that are the short ones
(the original claim said the last ones; `C2_block_split_cex` refutes that). -/
theorem C2_block_split (lvl ver : Nat) (hl : lvl ≤ 3) (hv1 : 1 ≤ ver) (hv2 : ver ≤ 40)
    (data : List Nat)
    (hdata : data.length =
      totalCodewords ver - errCorrBlocksN lvl ver * eccPerBlockN lvl ver) :
    ∀ i, i < errCorrBlocksN lvl ver →
      (((splitDataBlocks lvl ver data).map List.length).getD i 0 =
          shortBlockLen lvl ver - eccPerBlockN lvl ver ∨
        ((splitDataBlocks lvl ver data).map List.length).getD i 0 =
          shortBlockLen lvl ver - eccPerBlockN lvl ver + 1) ∧
      (i < errCorrBlocksN lvl ver - totalCodewords ver % errCorrBlocksN lvl ver ↔
        ((splitDataBlocks lvl ver data).map List.length).getD i 0 =
          shortBlockLen lvl ver - eccPerBlockN lvl ver) := by
  intro i hi
  have hlens : (splitDataBlocks lvl ver data).map List.length = blockLens lvl ver :=
    splitBlocksAux_lengths _ data (by rw [hdata, blockLens_sum lvl ver hl hv1 hv2])
  rw [hlens]
  unfold blockLens
  rw [getD_map_range, if_pos hi]
  have hns : numShortBlocks lvl ver =
      errCorrBlocksN lvl ver - totalCodewords ver % errCorrBlocksN lvl ver := rfl
  by_cases hshort : i < numShortBlocks lvl ver
  · rw [if_pos hshort]
    exact ⟨Or.inl (by omega), by rw [← hns]; constructor <;> intro <;> omega⟩
  · rw [if_neg hshort]
    refine ⟨Or.inr rfl, ?_⟩
    rw [← hns]
    constructor
    · intro h
      exact absurd h hshort
    · intro h
      omega

/-- Witness for C2 at version 5, level High (index 3), with the 46 data
codewords that stream carries: block lengths are `[11, 11, 12, 12]`. -/
theorem C2_block_split_witness :
    ((splitDataBlocks 3 5 (List.range 46)).map List.length).getD 0 0 = 11 ∧
      ((splitDataBlocks 3 5 (List.range 46)).map List.length).getD 3 0 = 12 := by
  have h0 := C2_block_split 3 5 (by decide) (by decide) (by decide) (List.range 46)
    (by decide) 0 (by decide)
  have h3 := C2_block_split 3 5 (by decide) (by decide) (by decide) (List.range 46)
    (by decide) 3 (by decide)
  refine ⟨?_, ?_⟩
  · have := h0.2.mp (by decide)
    simpa using this
  · rcases h3.1 with h | h
    · exact absurd (h3.2.mpr h) (by decide)
    · simpa using h

/-- Counterexample to C2 as stated: at version 5, level High, `B = 4` and
`total_codewords = 134`, so `B - (134 mod 4) = 2` and the claim places the
short blocks at indices 2 and 3; but block 3 has the long data length 12
(`short_len - E = 33 - 22 = 11`). -/
theorem C2_block_split_cex :
    errCorrBlocksN 3 5 = 4 ∧ totalCodewords 5 % errCorrBlocksN 3 5 = 2 ∧
      numShortBlocks 3 5 = 2 ∧
      shortBlockLen 3 5 - eccPerBlockN 3 5 = 11 ∧
      ((splitDataBlocks 3 5 (List.range 46)).map List.length).getD 3 0 = 12 := by
  decide

/-! ## Bit buffer and segment encoder - `QRCode::encodeText` (qr.cc:34-41, 390-477) -/

/-- The bits pushed by `BitBuffer::appendBits`: bit `i` of `val` for
`i = len-1` down to `0` (most significant first). -/
def toBitsBE (val len : Nat) : List Bool :=
  (List.range len).reverse.map fun i => ((val >>> i) &&& 1) != 0

/-- `QRCode::BitBuffer::appendBits` (qr.cc:34-41): the out-of-range guard
`len < 0 || len > 31 || val >> len != 0` throws (modelled `none`; a natural
`len` cannot be negative), else append the bits. -/
def appendBits (buffer : List Bool) (val len : Nat) : Option (List Bool) :=
  if len > 31 ∨ val >>> len ≠ 0 then none
  else some (buffer ++ toBitsBE val len)

theorem toBitsBE_length (val len : Nat) : (toBitsBE val len).length = len := by
  simp [toBitsBE]

theorem shiftRight_eq_zero (v n : Nat) (h : v < 2 ^ n) : v >>> n = 0 := by
  rw [Nat.shiftRight_eq_div_pow]
  exact Nat.div_eq_of_lt h

/-- The Numeric branch of `QRCode::encodeText` (qr.cc:401-423): accumulate
digits into `group`, count with `max`, flush 10 bits per full group of three,
and flush a trailing group of `max` digits in `max * 3 + 1` bits.  A non-digit
character throws (`none`). -/
def numLoop : List Bool → Nat → Nat → List Nat → Option (List Bool)
  | buffer, group, mx, [] =>
      if mx > 0 then appendBits buffer group (mx * 3 + 1) else some buffer
  | buffer, group, mx, ch :: rest =>
      if ch < 48 ∨ 57 < ch then none
      else if mx + 1 = 3 then
        (appendBits buffer (group * 10 + (ch - 48)) 10).bind fun buffer2 =>
          numLoop buffer2 0 0 rest
      else numLoop buffer (group * 10 + (ch - 48)) (mx + 1) rest

/-- Restatement of C5 in the claim's own terms: groups of 3 digits in 10 bits
(value = decimal value of the group), a trailing pair in 7 bits, a trailing
single digit in 4 bits. -/
def numericChunksBits : List Nat → List Bool
  | d1 :: d2 :: d3 :: rest =>
      toBitsBE (d1 * 100 + d2 * 10 + d3) 10 ++ numericChunksBits rest
  | [d1, d2] => toBitsBE (d1 * 10 + d2) 7
  | [d1] => toBitsBE d1 4
  | [] => []

/-- C5: on every all-digit input the Numeric segment encoder emits exactly the
group encoding: 10 bits per group of three digits (the group's decimal value),
7 bits for a trailing pair, 4 bits for a trailing single digit. -/
theorem C5_numeric_groups :
    ∀ text : List Nat, (∀ ch ∈ text, 48 ≤ ch ∧ ch ≤ 57) →
      ∀ buffer : List Bool,
        numLoop buffer 0 0 text =
          some (buffer ++ numericChunksBits (text.map (fun ch => ch - 48))) := by
  intro text
  induction text using numericChunksBits.induct with
  | case1 d1 d2 d3 rest ih =>
    intro hdig buffer
    have h1 := hdig d1 (by simp)
    have h2 := hdig d2 (by simp)
    have h3 := hdig d3 (by simp)
    simp only [numLoop]
    rw [if_neg (by omega), if_neg (by decide), if_neg (by omega), if_neg (by decide),
      if_neg (by omega), if_pos (by decide)]
    have hval : ((0 * 10 + (d1 - 48)) * 10 + (d2 - 48)) * 10 + (d3 - 48) < 1024 := by
      omega
    rw [appendBits, if_neg (by
      push_neg
      exact ⟨by omega, shiftRight_eq_zero _ 10 hval⟩)]
    simp only [Option.some_bind]
    rw [ih (fun ch hch => hdig ch (by simp [hch])) (buffer ++ toBitsBE _ 10)]
    simp only [List.map_cons, numericChunksBits, List.append_assoc]
    rw [show ((0 * 10 + (d1 - 48)) * 10 + (d2 - 48)) * 10 + (d3 - 48) =
      (d1 - 48) * 100 + (d2 - 48) * 10 + (d3 - 48) from by omega]
  | case2 d1 d2 =>
    intro hdig buffer
    have h1 := hdig d1 (by simp)
    have h2 := hdig d2 (by simp)
    simp only [numLoop]
    rw [if_neg (by omega), if_neg (by decide), if_neg (by omega), if_neg (by decide),
      if_pos (by decide)]
    have hval : (0 * 10 + (d1 - 48)) * 10 + (d2 - 48) < 128 := by omega
    rw [appendBits, if_neg (by
      push_neg
      exact ⟨by omega, shiftRight_eq_zero _ 7 hval⟩)]
    simp only [List.map_cons, List.map_nil, numericChunksBits]
    congr 3
    omega
  | case3 d1 =>
    intro hdig buffer
    have h1 := hdig d1 (by simp)
    simp only [numLoop]
    rw [if_neg (by omega), if_neg (by decide), if_pos (by decide)]
    have hval : 0 * 10 + (d1 - 48) < 16 := by omega
    rw [appendBits, if_neg (by
      push_neg
      exact ⟨by omega, shiftRight_eq_zero _ 4 hval⟩)]
    simp only [List.map_cons, List.map_nil, numericChunksBits]
    congr 3
    omega
  | case4 =>
    intro _ buffer
    simp [numLoop, numericChunksBits]

/-- Witness for C5: the digit string "12345" encodes as the 10-bit group 123
followed by the 7-bit tail 45. -/
theorem C5_numeric_groups_witness :
    numLoop [] 0 0 [49, 50, 51, 52, 53] =
      some (toBitsBE 123 10 ++ toBitsBE 45 7) := by
  have h := C5_numeric_groups [49, 50, 51, 52, 53] (by decide) []
  rw [h]
  simp only [List.map_cons, List.map_nil, numericChunksBits, List.nil_append]

/-- The Alphanumeric branch of `QRCode::encodeText` (qr.cc:425-446): groups of
two characters in 11 bits (`first·45 + second` by alphabet index), a single
trailing character in 6 bits.  `kAlphanumericChar_.find` is modelled by
`List.indexOf` (`npos` cannot occur for classified text). -/
def alphaLoop : List Bool → Nat → Nat → List Nat → Option (List Bool)
  | buffer, group, mx, [] =>
      if mx > 0 then appendBits buffer group 6 else some buffer
  | buffer, group, mx, ch :: rest =>
      if mx + 1 = 2 then
        (appendBits buffer (group * 45 + kAlphanumericChar.indexOf ch) 11).bind fun b2 =>
          alphaLoop b2 0 0 rest
      else alphaLoop buffer (group * 45 + kAlphanumericChar.indexOf ch) (mx + 1) rest

/-- The Byte branch of `QRCode::encodeText` (qr.cc:448-452): 8 bits per
character.  (The C++ casts a signed `char`; for classified Byte text every
value is ≤ 0x7E, where the cast is the identity.) -/
def byteLoop : List Bool → List Nat → Option (List Bool)
  | buffer, [] => some buffer
  | buffer, ch :: rest => (appendBits buffer ch 8).bind fun b2 => byteLoop b2 rest

/-- The big-endian byte value of (up to) eight bits, as accumulated by
`codewords.at(i >> 3) |= bit << (7 - (i & 7))` (qr.cc:471-474). -/
def byteFromBits (bits : List Bool) : Nat :=
  bits.foldl (fun acc b => acc * 2 + (if b then 1 else 0)) 0

/-- Packing of the bit buffer into `buffer.size() / 8` bytes (qr.cc:471-474). -/
def packBits (bits : List Bool) : List Nat :=
  (List.range (bits.length / 8)).map fun i => byteFromBits ((bits.drop (8 * i)).take 8)

/-- The padding-byte loop (qr.cc:466-468): append alternating `0xEC`/`0x11`
bytes until the buffer reaches `capacity` bits.  (`appendBits` cannot fail on
these two byte values, so the bits are appended directly.) -/
def padBytes (buffer : List Bool) (byte : Nat) (capacity : Nat) : List Bool :=
  if h : buffer.length < capacity then
    padBytes (buffer ++ toBitsBE byte 8) (byte ^^^ (0xEC ^^^ 0x11)) capacity
  else buffer
termination_by capacity - buffer.length
decreasing_by
  simp only [List.length_append, toBitsBE_length]
  omega

/-- `QRCode::encodeText` (qr.cc:390-477): 4-bit mode indicator, character
count in `getBitsPerChar(version)` bits, the per-mode payload bits (ECI and
Kanji append nothing), up to 4 terminator bits clamped to the remaining
capacity, zero padding to a byte boundary, padding bytes to capacity, and
big-endian packing into bytes. -/
def encodeText (enc : Encoding) (version lvl : Nat) (text : List Nat) :
    Option (List Nat) :=
  (appendBits [] enc.mode 4).bind fun buffer1 =>
  (enc.getBitsPerChar version).bind fun cntBits =>
  (appendBits buffer1 text.length cntBits).bind fun buffer2 =>
  (match enc.mode with
    | 1 => numLoop buffer2 0 0 text
    | 2 => alphaLoop buffer2 0 0 text
    | 4 => byteLoop buffer2 text
    | _ => some buffer2).bind fun buffer3 =>
  (appendBits buffer3 0
      (min 4 ((getTotalCodewords version lvl).toNat * 8 - buffer3.length))).bind fun buffer4 =>
  (appendBits buffer4 0 ((8 - buffer4.length % 8) % 8)).bind fun buffer5 =>
  some (packBits (padBytes buffer5 0xEC ((getTotalCodewords version lvl).toNat * 8)))

/-- `QRCode::addEDCInterleave` (qr.cc:493-535): split the data codewords into
blocks (`splitBlocksAux` lengths as in C2), append a sentinel `0` to each
short block and the per-block EC codewords, then interleave column-wise,
skipping the sentinel slot (`i == short_len - E` for `j < num_short_blocks`). -/
def addEDCInterleave (lvl ver : Nat) (data : List Nat) : List Nat :=
  let numBlocks := errCorrBlocksN lvl ver
  let eccPer := eccPerBlockN lvl ver
  let total := totalCodewords ver
  let numShort := numBlocks - total % numBlocks
  let shortLen := total / numBlocks
  let blocksL :=
    ((List.range numBlocks).foldl (fun (acc : List (List Nat) × Nat) i =>
      let bl := (data.drop acc.2).take (shortLen - eccPer + (if i < numShort then 0 else 1))
      let edc := generateEDC bl (shortLen + (if i < numShort then 0 else 1))
      (acc.1 ++ [(if i < numShort then bl ++ [0] else bl) ++ edc], acc.2 + bl.length))
      ([], 0)).1
  (List.range (blocksL.getD 0 []).length).flatMap fun i =>
    (List.range blocksL.length).filterMap fun j =>
      if i ≠ shortLen - eccPer ∨ numShort ≤ j then some ((blocksL.getD j []).getD i 0)
      else none

/-! ## The module grid - `QRCode::drawPatterns` and friends (qr.cc:199-387)

`blocks_` and `funcBlock_` are modelled as total functions on `Int × Int`
coordinates, written `(x, y)` exactly as `setFuncBlocks(x, y, v)` addresses
`blocks_.at(y).at(x)`.  Every pattern writer is rendered as its ordered list
of `((x, y), value)` writes, applied through `setFuncBlocks`. -/

abbrev Pos := Int × Int

structure QRState where
  size : Nat
  blocks : Pos → Bool
  func : Pos → Bool

/-- The freshly allocated `size × size` grids (all-light, nothing reserved). -/
def initState (size : Nat) : QRState :=
  ⟨size, fun _ => false, fun _ => false⟩

/-- `QRCode::setFuncBlocks` (qr.cc:200-203). -/
def setFuncBlocks (st : QRState) (x y : Int) (v : Bool) : QRState :=
  { st with
    blocks := fun q => if q = (x, y) then v else st.blocks q,
    func := fun q => if q = (x, y) then true else st.func q }

/-- Apply `(position, value)` writes through `setFuncBlocks`, in order. -/
def applyWrites (st : QRState) (ws : List (Pos × Bool)) : QRState :=
  ws.foldl (fun s w => setFuncBlocks s w.1.1 w.1.2 w.2) st

/-- The integers `a, a+1, ..., b-1` (a C `for` loop over `int`). -/
def intRange (a b : Int) : List Int :=
  (List.range (b - a).toNat).map (fun (k : Nat) => a + (k : Int))

/-- The timing-pattern writes (qr.cc:241-244): for each `i < size`, set
`(i, 6)` and `(6, i)` dark iff `i % 2 == 0`. -/
def timingWrites (size : Nat) : List (Pos × Bool) :=
  (List.range size).flatMap fun i =>
    [(((i : Int), 6), decide (i % 2 = 0)), ((6, (i : Int)), decide (i % 2 = 0))]

/-- `QRCode::setFinderBlocks` (qr.cc:205-216): Chebyshev-distance pattern in a
clipped 9×9 box around the centre. -/
def finderWrites (x y : Int) (size : Nat) : List (Pos × Bool) :=
  (intRange (-4) 5).flatMap fun dy =>
    (intRange (-4) 5).filterMap fun dx =>
      if 0 ≤ x + dx ∧ x + dx < (size : Int) ∧ 0 ≤ y + dy ∧ y + dy < (size : Int) then
        some ((x + dx, y + dy),
          decide (max |dx| |dy| ≠ 2 ∧ max |dx| |dy| ≠ 4))
      else none

/-- `QRCode::setAlignmentBlocks` (qr.cc:218-224): 5×5 pattern, dark iff the
Chebyshev distance differs from 1 (no bounds clipping in the source). -/
def alignmentWrites (x y : Int) : List (Pos × Bool) :=
  (intRange (-2) 3).flatMap fun dy =>
    (intRange (-2) 3).map fun dx =>
      ((x + dx, y + dy), decide (max |dx| |dy| ≠ 1))

/-- `QRCode::determineAlignmentPos` (qr.cc:80-98).  All divisions are C `int`
divisions of nonnegative quantities (`std::floor`/`std::ceil` are applied to
already-integral values). -/
def determineAlignmentPos (version : Nat) : List Int :=
  if version = 1 then []
  else
    let intervals : Nat := version / 7 + 1
    let distance : Int := 4 * (version : Int) + 4
    let step : Int := distance / (intervals : Int) / 2 * 2
    6 :: (List.range intervals).map
      (fun i => distance + 6 - ((intervals : Int) - 1 - (i : Int)) * step)

/-- `QRCode::drawAlignmentBlocks` (qr.cc:226-236): all track pairs except the
three finder corners. -/
def drawAlignmentWrites (version : Nat) : List (Pos × Bool) :=
  let tracks := determineAlignmentPos version
  let n := tracks.length
  (List.range n).flatMap fun i =>
    (List.range n).flatMap fun j =>
      if (i = 0 ∧ j = 0) ∨ (i = 0 ∧ j = n - 1) ∨ (i = n - 1 ∧ j = 0) then []
      else alignmentWrites (tracks.getD i 0) (tracks.getD j 0)

/-- `QRCode::formatBits` (qr.cc:629-637); the default branch throws in the
source and is unreachable for level indices 0-3. -/
def formatBits (lvl : Nat) : Nat :=
  match lvl with
  | 0 => 1
  | 1 => 0
  | 2 => 3
  | 3 => 2
  | _ => 0

/-- The 15 format bits (qr.cc:284-298): BCH remainder of `format << 3 | mask`
and the final XOR with 0x5412. -/
def formatBitsFull (lvl mask : Nat) : Nat :=
  let data := formatBits lvl <<< 3 ||| mask
  let rem := (List.range 10).foldl (fun r _ => (r <<< 1) ^^^ ((r >>> 9) * 0x537)) data
  (data <<< 10 ||| rem) ^^^ 0x5412

/-- The format-pattern writes (qr.cc:300-328), in source order: column 8
(skipping the timing row), `(7,8)`, row 8 left, row 8 right, column 8 bottom,
and the fixed dark module at `(8, size-8)`. -/
def formatWrites (bits : Nat) (size : Nat) : List (Pos × Bool) :=
  ((List.range 9).filterMap fun (i : Nat) =>
    if i ≤ 5 then some (((8 : Int), (i : Int)), decide ((bits >>> i) &&& 1 ≠ 0))
    else if i = 6 then none
    else some (((8 : Int), (i : Int)), decide ((bits >>> (i - 1)) &&& 1 ≠ 0)))
  ++ [(((7 : Int), (8 : Int)), decide ((bits >>> 8) &&& 1 ≠ 0))]
  ++ ((List.range 6).map fun k =>
    ((((14 - (k + 9) : Nat) : Int), (8 : Int)), decide ((bits >>> (k + 9)) &&& 1 ≠ 0)))
  ++ ((List.range 8).map fun i =>
    ((((size - 1 - i : Nat) : Int), (8 : Int)), decide ((bits >>> i) &&& 1 ≠ 0)))
  ++ ((List.range 7).map fun k =>
    (((8 : Int), ((size - 15 + (k + 8) : Nat) : Int)), decide ((bits >>> (k + 8)) &&& 1 ≠ 0)))
  ++ [(((8 : Int), ((size - 8 : Nat) : Int)), true)]

/-- `QRCode::drawVersion` (qr.cc:331-357): nothing below version 7; otherwise
the 18 Golay-protected bits in the two 3×6 rectangles. -/
def versionWrites (version size : Nat) : List (Pos × Bool) :=
  if version < 7 then []
  else
    let rem := (List.range 12).foldl
      (fun r _ => (r <<< 1) ^^^ ((r >>> 11) * 0x1F25)) version
    let vbits := version <<< 12 ||| rem
    (List.range 18).flatMap fun i =>
      [((((size - 11 + i % 3 : Nat) : Int), ((i / 3 : Nat) : Int)),
          decide ((vbits >>> i) &&& 1 ≠ 0)),
        ((((i / 3 : Nat) : Int), ((size - 11 + i % 3 : Nat) : Int)),
          decide ((vbits >>> i) &&& 1 ≠ 0))]

/-- `QRCode::drawPatterns` (qr.cc:238-254): timing, the three finders,
alignment, format, version - in source order. -/
def drawPatterns (st : QRState) (version lvl mask : Nat) : QRState :=
  applyWrites
    (applyWrites
      (applyWrites
        (applyWrites
          (applyWrites
            (applyWrites
              (applyWrites st (timingWrites st.size))
              (finderWrites 3 3 st.size))
            (finderWrites ((st.size : Int) - 4) 3 st.size))
          (finderWrites 3 ((st.size : Int) - 4) st.size))
        (drawAlignmentWrites version))
      (formatWrites (formatBitsFull lvl mask) st.size))
    (versionWrites version st.size)

/-- The column sequence of `QRCode::drawCodewords` (qr.cc:260-265): `right`
from `size-1` downward in steps of 2, with `right == 6` replaced by 5. -/
def colSeq (r : Nat) : List Nat :=
  if h : 1 ≤ r then
    (if r = 6 then 5 else r) :: colSeq ((if r = 6 then 5 else r) - 2)
  else []
termination_by r
decreasing_by
  split <;> omega

/-- The cell visit order of `QRCode::drawCodewords` (qr.cc:256-282): for each
column pair, each `vert`, each sub-column `j`, the visited `(x, y)`. -/
def drawCodewordsPos (size : Nat) : List (Nat × Nat) :=
  (colSeq (size - 1)).flatMap fun right =>
    (List.range size).flatMap fun vert =>
      (List.range 2).map fun j =>
        (right - j, if ((right + 1) &&& 2) = 0 then size - 1 - vert else vert)

/-- One visited cell of `QRCode::drawCodewords` (qr.cc:274-278): write the
next data bit and advance the counter when the cell is not reserved and bits
remain. -/
def drawCodewordsStep (st : QRState) (data : List Nat)
    (acc : (Pos → Bool) × Nat) (p : Nat × Nat) : (Pos → Bool) × Nat :=
  if ¬ st.func ((p.1 : Int), (p.2 : Int)) ∧ acc.2 < data.length * 8 then
    ((fun r => if r = ((p.1 : Int), (p.2 : Int)) then
        ((data.getD (acc.2 / 8) 0 >>> (7 - acc.2 % 8)) &&& 1) != 0
      else acc.1 r), acc.2 + 1)
  else acc

/-- `QRCode::drawCodewords` (qr.cc:256-282): stream the codeword bits into the
non-reserved cells in zig-zag order. -/
def drawCodewords (st : QRState) (data : List Nat) : QRState :=
  { st with blocks :=
      ((drawCodewordsPos st.size).foldl (drawCodewordsStep st data) (st.blocks, 0)).1 }

/-- The mask predicates of `QRCode::mask` (qr.cc:369-381); the default branch
throws and is unreachable behind the `[0,7]` guard. -/
def maskSwap (m : Nat) (x y : Nat) : Bool :=
  match m with
  | 0 => decide ((x + y) % 2 = 0)
  | 1 => decide (y % 2 = 0)
  | 2 => decide (x % 3 = 0)
  | 3 => decide ((x + y) % 3 = 0)
  | 4 => decide ((x / 3 + y / 2) % 2 = 0)
  | 5 => decide (x * y % 2 + x * y % 3 = 0)
  | 6 => decide ((x * y % 2 + x * y % 3) % 2 = 0)
  | 7 => decide (((x + y) % 2 + x * y % 3) % 2 = 0)
  | _ => false

/-- The row-major cell order of the mask sweep (qr.cc:366-367). -/
def maskCells (size : Nat) : List (Nat × Nat) :=
  (List.range size).flatMap fun y => (List.range size).map fun x => (x, y)

/-- One cell of the mask sweep (qr.cc:384):
`blocks_[y][x] ^= swap & !funcBlock_[y][x]`. -/
def maskStepCell (m : Nat) (st : QRState) (g : Pos → Bool) (p : Nat × Nat) :
    Pos → Bool :=
  fun r => if r = ((p.1 : Int), (p.2 : Int)) then
    xor (g ((p.1 : Int), (p.2 : Int)))
      (maskSwap m p.1 p.2 && !(st.func ((p.1 : Int), (p.2 : Int))))
  else g r

/-- The cell sweep of `QRCode::mask` (qr.cc:363-386): every cell XORed with
`swap && !funcBlock` (reading the cell being written). -/
def maskRun (m : Nat) (st : QRState) : QRState :=
  { st with blocks := (maskCells st.size).foldl (maskStepCell m st) st.blocks }

/-- `QRCode::mask` (qr.cc:359-387): reject a mask index outside `[0,7]`
(the source throws "Invalid mask."), else sweep the grid. -/
def maskApply (m : Int) (st : QRState) : Option QRState :=
  if m < 0 ∨ m > 7 then none else some (maskRun m.toNat st)

/-- The constructor's mask clamp (qr.cc:47-49): out-of-range indices become 0. -/
def clampMask (msk : Int) : Int := if msk < 0 ∨ msk > 7 then 0 else msk

structure QRSymbol where
  version : Nat
  level : Nat
  mode : Nat
  maskIdx : Int
  size : Nat
  blocks : Pos → Bool
  func : Pos → Bool

/-- `QRCode::QRCode` (qr.cc:45-61): clamp the mask, classify, select version
and level, draw the function patterns, encode, add EC and interleave, place
the codewords, and apply the mask.  Thrown `std::logic_error`s - and the
unclassifiable-input case, where the source leaves its encoding pointer
uninitialised - surface as `none`. -/
def qrConstruct (text : List Nat) (minErr : Nat) (msk : Int) : Option QRSymbol :=
  (determineEncoding text).bind fun enc =>
  (setVersionAndErrorLevel enc (text.length : Int) minErr).bind fun vl =>
  (encodeText enc vl.1 vl.2 text).bind fun data =>
  (maskApply (clampMask msk)
      (drawCodewords
        (drawPatterns (initState (4 * vl.1 + 17)) vl.1 vl.2 (clampMask msk).toNat)
        (addEDCInterleave vl.2 vl.1 data))).map fun st3 =>
  ⟨vl.1, vl.2, enc.mode, clampMask msk, 4 * vl.1 + 17, st3.blocks, st3.func⟩

/-! ### Generic facts about `applyWrites` -/

theorem setFuncBlocks_blocks (st : QRState) (x y : Int) (v : Bool) (p : Pos) :
    (setFuncBlocks st x y v).blocks p = if p = (x, y) then v else st.blocks p := rfl

theorem setFuncBlocks_func (st : QRState) (x y : Int) (v : Bool) (p : Pos) :
    (setFuncBlocks st x y v).func p = if p = (x, y) then true else st.func p := rfl

theorem applyWrites_cons (st : QRState) (w : Pos × Bool) (ws : List (Pos × Bool)) :
    applyWrites st (w :: ws) = applyWrites (setFuncBlocks st w.1.1 w.1.2 w.2) ws := rfl

theorem applyWrites_size (ws : List (Pos × Bool)) :
    ∀ st : QRState, (applyWrites st ws).size = st.size := by
  induction ws with
  | nil => intro st; rfl
  | cons w ws ih => intro st; rw [applyWrites_cons, ih]; rfl

/-- If every write to `p` in the list writes `v` and `p` already holds `v`,
the value at `p` is still `v` afterwards. -/
theorem applyWrites_blocks_preserve (p : Pos) (v : Bool) (ws : List (Pos × Bool)) :
    ∀ st : QRState, st.blocks p = v → (∀ w ∈ ws, w.1 = p → w.2 = v) →
      (applyWrites st ws).blocks p = v := by
  induction ws with
  | nil => intro st h _; exact h
  | cons w ws ih =>
    intro st h hall
    rw [applyWrites_cons]
    refine ih _ ?_ (fun w2 hw2 => hall w2 (List.mem_cons_of_mem _ hw2))
    rw [setFuncBlocks_blocks]
    split
    · next heq => exact hall w (List.mem_cons_self _ _) (by rw [heq])
    · exact h

/-- If `p` is written at least once and every write to it writes `v`, the
value at `p` is `v` afterwards, whatever it was before. -/
theorem applyWrites_blocks_const (p : Pos) (v : Bool) (ws : List (Pos × Bool)) :
    ∀ st : QRState, (∀ w ∈ ws, w.1 = p → w.2 = v) → p ∈ ws.map Prod.fst →
      (applyWrites st ws).blocks p = v := by
  induction ws with
  | nil => intro st _ hmem; simp at hmem
  | cons w ws ih =>
    intro st hall hmem
    rw [applyWrites_cons]
    by_cases hw : p ∈ ws.map Prod.fst
    · exact ih _ (fun w2 hw2 => hall w2 (List.mem_cons_of_mem _ hw2)) hw
    · have hw1 : w.1 = p := by
        rw [List.map_cons] at hmem
        rcases List.mem_cons.mp hmem with h | h
        · exact h.symm
        · exact absurd h hw
      refine applyWrites_blocks_preserve p v ws _ ?_
        (fun w2 hw2 => hall w2 (List.mem_cons_of_mem _ hw2))
      rw [setFuncBlocks_blocks, if_pos (by rw [← hw1])]
      exact hall w (List.mem_cons_self _ _) hw1

theorem applyWrites_func_mono (p : Pos) (ws : List (Pos × Bool)) :
    ∀ st : QRState, st.func p = true → (applyWrites st ws).func p = true := by
  induction ws with
  | nil => intro st h; exact h
  | cons w ws ih =>
    intro st h
    rw [applyWrites_cons]
    refine ih _ ?_
    rw [setFuncBlocks_func]
    split
    · rfl
    · exact h

theorem applyWrites_func_of_mem (p : Pos) (ws : List (Pos × Bool)) :
    ∀ st : QRState, p ∈ ws.map Prod.fst → (applyWrites st ws).func p = true := by
  induction ws with
  | nil => intro st hmem; simp at hmem
  | cons w ws ih =>
    intro st hmem
    rw [applyWrites_cons]
    by_cases hw : p ∈ ws.map Prod.fst
    · exact ih _ hw
    · have hw1 : w.1 = p := by
        rw [List.map_cons] at hmem
        rcases List.mem_cons.mp hmem with h | h
        · exact h.symm
        · exact absurd h hw
      refine applyWrites_func_mono p ws _ ?_
      rw [setFuncBlocks_func, if_pos (by rw [← hw1])]

/-! ### The write lists of the individual pattern stages -/

theorem mem_intRange (a b t : Int) : t ∈ intRange a b ↔ a ≤ t ∧ t < b := by
  unfold intRange
  rw [List.mem_map]
  constructor
  · rintro ⟨k, hk, rfl⟩
    rw [List.mem_range] at hk
    have hk2 := Int.lt_toNat.mp hk
    omega
  · rintro ⟨h1, h2⟩
    have h3 : ((t - a).toNat : Int) = t - a := Int.toNat_of_nonneg (by omega)
    refine ⟨(t - a).toNat, ?_, ?_⟩
    · rw [List.mem_range]
      exact Int.lt_toNat.mpr (by rw [h3]; omega)
    · rw [h3]
      omega

theorem timingWrites_elem (size : Nat) (w : Pos × Bool) (hw : w ∈ timingWrites size) :
    ∃ i : Nat, i < size ∧
      (w = (((i : Int), 6), decide (i % 2 = 0)) ∨
        w = ((6, (i : Int)), decide (i % 2 = 0))) := by
  unfold timingWrites at hw
  simp only [List.mem_flatMap, List.mem_range, List.mem_cons, List.mem_singleton] at hw
  obtain ⟨i, hi, hcase⟩ := hw
  rcases hcase with h | h | h
  · exact ⟨i, hi, Or.inl h⟩
  · exact ⟨i, hi, Or.inr h⟩
  · simp at h

theorem timingWrites_mem_row (size x : Nat) (hx : x < size) :
    (((x : Int), 6) : Pos) ∈ (timingWrites size).map Prod.fst := by
  refine List.mem_map.mpr ⟨(((x : Int), 6), decide (x % 2 = 0)), ?_, rfl⟩
  unfold timingWrites
  simp only [List.mem_flatMap, List.mem_range]
  exact ⟨x, hx, by simp⟩

theorem timingWrites_mem_col (size x : Nat) (hx : x < size) :
    ((6, (x : Int)) : Pos) ∈ (timingWrites size).map Prod.fst := by
  refine List.mem_map.mpr ⟨((6, (x : Int)), decide (x % 2 = 0)), ?_, rfl⟩
  unfold timingWrites
  simp only [List.mem_flatMap, List.mem_range]
  exact ⟨x, hx, by simp⟩

theorem timingWrites_val_row (size x : Nat) (w : Pos × Bool) (hw : w ∈ timingWrites size)
    (h1 : w.1 = ((x : Int), 6)) : w.2 = decide (x % 2 = 0) := by
  obtain ⟨i, _, hcase⟩ := timingWrites_elem size w hw
  rcases hcase with rfl | rfl
  · simp only [Prod.mk.injEq] at h1 ⊢
    have : i = x := by omega
    simp [this]
  · simp only [Prod.mk.injEq] at h1 ⊢
    have hx6 : x = 6 ∧ i = 6 := by omega
    simp [hx6.1, hx6.2]

theorem timingWrites_val_col (size x : Nat) (w : Pos × Bool) (hw : w ∈ timingWrites size)
    (h1 : w.1 = (6, (x : Int))) : w.2 = decide (x % 2 = 0) := by
  obtain ⟨i, _, hcase⟩ := timingWrites_elem size w hw
  rcases hcase with rfl | rfl
  · simp only [Prod.mk.injEq] at h1 ⊢
    have hx6 : x = 6 ∧ i = 6 := by omega
    simp [hx6.1, hx6.2]
  · simp only [Prod.mk.injEq] at h1 ⊢
    have : i = x := by omega
    simp [this]

theorem finderWrites_elem (cx cy : Int) (s : Nat) (w : Pos × Bool)
    (hw : w ∈ finderWrites cx cy s) :
    ∃ dx dy : Int, -4 ≤ dx ∧ dx ≤ 4 ∧ -4 ≤ dy ∧ dy ≤ 4 ∧ w.1 = (cx + dx, cy + dy) := by
  unfold finderWrites at hw
  simp only [List.mem_flatMap, List.mem_filterMap] at hw
  obtain ⟨dy, hdy, dx, hdx, hsome⟩ := hw
  rw [mem_intRange] at hdy hdx
  split at hsome
  · refine ⟨dx, dy, by omega, by omega, by omega, by omega, ?_⟩
    rw [← Option.some_inj.mp hsome]
  · simp at hsome

theorem alignmentWrites_elem (cx cy : Int) (w : Pos × Bool)
    (hw : w ∈ alignmentWrites cx cy) :
    ∃ dx dy : Int, -2 ≤ dx ∧ dx ≤ 2 ∧ -2 ≤ dy ∧ dy ≤ 2 ∧
      w = ((cx + dx, cy + dy), decide (max |dx| |dy| ≠ 1)) := by
  unfold alignmentWrites at hw
  simp only [List.mem_flatMap, List.mem_map] at hw
  obtain ⟨dy, hdy, dx, hdx, heq⟩ := hw
  rw [mem_intRange] at hdy hdx
  exact ⟨dx, dy, by omega, by omega, by omega, by omega, heq.symm⟩

theorem drawAlignmentWrites_elem (v : Nat) (w : Pos × Bool)
    (hw : w ∈ drawAlignmentWrites v) :
    ∃ cx ∈ determineAlignmentPos v, ∃ cy ∈ determineAlignmentPos v,
      w ∈ alignmentWrites cx cy := by
  unfold drawAlignmentWrites at hw
  simp only [List.mem_flatMap, List.mem_range] at hw
  obtain ⟨i, hi, j, hj, hw⟩ := hw
  split at hw
  · simp at hw
  · refine ⟨(determineAlignmentPos v).getD i 0, ?_, (determineAlignmentPos v).getD j 0, ?_, hw⟩
    · rw [List.getD_eq_getElem _ _ hi]
      exact List.getElem_mem _
    · rw [List.getD_eq_getElem _ _ hj]
      exact List.getElem_mem _

/-- Per-version facts about the alignment tracks: every track is even, and
every track other than 6 is at least 18. -/
theorem alignTracks_facts :
    ∀ v : Nat, v < 41 → 1 ≤ v → ∀ t ∈ determineAlignmentPos v,
      t % 2 = 0 ∧ (t = 6 ∨ 18 ≤ t) := by
  decide

/-- The format pattern never writes any cell of row 6 or column 6. -/
theorem formatWrites_ne (bits s : Nat) (hs : 21 ≤ s) (x : Nat)
    (w : Pos × Bool) (hw : w ∈ formatWrites bits s) :
    w.1 ≠ ((x : Int), 6) ∧ w.1 ≠ (6, (x : Int)) := by
  unfold formatWrites at hw
  simp only [List.mem_append, List.mem_filterMap, List.mem_range, List.mem_map,
    List.mem_singleton] at hw
  rcases hw with ((((hw | hw) | hw) | hw) | hw) | hw
  · obtain ⟨i, hi, hsome⟩ := hw
    split at hsome
    · next hi5 =>
      rw [← Option.some_inj.mp hsome]
      constructor <;> intro heq <;> (rw [Prod.mk.injEq] at heq; omega)
    · split at hsome
      · simp at hsome
      · next _ hi6 =>
        rw [← Option.some_inj.mp hsome]
        constructor <;> intro heq <;> (rw [Prod.mk.injEq] at heq; omega)
  · subst hw
    constructor <;> intro heq <;> (rw [Prod.mk.injEq] at heq; omega)
  · obtain ⟨k, hk, rfl⟩ := hw
    constructor <;> intro heq <;> (rw [Prod.mk.injEq] at heq; omega)
  · obtain ⟨i, hi, rfl⟩ := hw
    constructor <;> intro heq <;> (rw [Prod.mk.injEq] at heq; omega)
  · obtain ⟨k, hk, rfl⟩ := hw
    constructor <;> intro heq <;> (rw [Prod.mk.injEq] at heq; omega)
  · subst hw
    constructor <;> intro heq <;> (rw [Prod.mk.injEq] at heq; omega)

/-- The version pattern never writes any cell of row 6 or column 6. -/
theorem versionWrites_ne (v s : Nat) (hvs : s = 4 * v + 17) (x : Nat)
    (w : Pos × Bool) (hw : w ∈ versionWrites v s) :
    w.1 ≠ ((x : Int), 6) ∧ w.1 ≠ (6, (x : Int)) := by
  unfold versionWrites at hw
  split at hw
  · simp at hw
  · next hv7 =>
    simp only [List.mem_flatMap, List.mem_range, List.mem_cons,
      List.mem_singleton] at hw
    obtain ⟨i, hi, hcase⟩ := hw
    rcases hcase with rfl | rfl | h
    · constructor <;> intro heq <;> (rw [Prod.mk.injEq] at heq; omega)
    · constructor <;> intro heq <;> (rw [Prod.mk.injEq] at heq; omega)
    · simp at h

/-- Any alignment-pattern write landing on row 6 agrees with the timing
pattern: the written value is `x mod 2 == 0`. -/
theorem drawAlignmentWrites_val_row (v : Nat) (hv1 : 1 ≤ v) (hv2 : v ≤ 40) (x : Nat)
    (w : Pos × Bool) (hw : w ∈ drawAlignmentWrites v)
    (h1 : w.1 = ((x : Int), 6)) : w.2 = decide (x % 2 = 0) := by
  obtain ⟨cx, hcx, cy, hcy, hwa⟩ := drawAlignmentWrites_elem v w hw
  obtain ⟨dx, dy, hdx1, hdx2, hdy1, hdy2, rfl⟩ := alignmentWrites_elem cx cy w hwa
  simp only [Prod.mk.injEq] at h1
  obtain ⟨hcxe, hcxr⟩ := alignTracks_facts v (by omega) hv1 cx hcx
  obtain ⟨hcye, hcyr⟩ := alignTracks_facts v (by omega) hv1 cy hcy
  have hcy6 : cy = 6 := by rcases hcyr with h | h <;> omega
  have hdy0 : dy = 0 := by omega
  subst hdy0
  simp only
  interval_cases dx
  · have hxp : x % 2 = 0 := by omega
    simp [hxp]
  · have hxp : x % 2 = 1 := by omega
    simp [hxp]
  · have hxp : x % 2 = 0 := by omega
    simp [hxp]
  · have hxp : x % 2 = 1 := by omega
    simp [hxp]
  · have hxp : x % 2 = 0 := by omega
    simp [hxp]

/-- Any alignment-pattern write landing on column 6 agrees with the timing
pattern. -/
theorem drawAlignmentWrites_val_col (v : Nat) (hv1 : 1 ≤ v) (hv2 : v ≤ 40) (x : Nat)
    (w : Pos × Bool) (hw : w ∈ drawAlignmentWrites v)
    (h1 : w.1 = (6, (x : Int))) : w.2 = decide (x % 2 = 0) := by
  obtain ⟨cx, hcx, cy, hcy, hwa⟩ := drawAlignmentWrites_elem v w hw
  obtain ⟨dx, dy, hdx1, hdx2, hdy1, hdy2, rfl⟩ := alignmentWrites_elem cx cy w hwa
  simp only [Prod.mk.injEq] at h1
  obtain ⟨hcxe, hcxr⟩ := alignTracks_facts v (by omega) hv1 cx hcx
  obtain ⟨hcye, hcyr⟩ := alignTracks_facts v (by omega) hv1 cy hcy
  have hcx6 : cx = 6 := by rcases hcxr with h | h <;> omega
  have hdx0 : dx = 0 := by omega
  subst hdx0
  simp only
  interval_cases dy
  · have hxp : x % 2 = 0 := by omega
    simp [hxp]
  · have hxp : x % 2 = 1 := by omega
    simp [hxp]
  · have hxp : x % 2 = 0 := by omega
    simp [hxp]
  · have hxp : x % 2 = 1 := by omega
    simp [hxp]
  · have hxp : x % 2 = 0 := by omega
    simp [hxp]

/-- The finder/separator boxes miss row-6 and column-6 cells outside the
finder regions (coordinate in `[8, size-9]`). -/
theorem finderWrites_ne (cx cy : Int) (s : Nat) (x : Nat) (hx1 : 8 ≤ x)
    (hx2 : x + 9 ≤ s) (hs : 21 ≤ s)
    (hcenter : (cx = 3 ∧ cy = 3) ∨ (cx = (s : Int) - 4 ∧ cy = 3) ∨
      (cx = 3 ∧ cy = (s : Int) - 4))
    (w : Pos × Bool) (hw : w ∈ finderWrites cx cy s) :
    w.1 ≠ ((x : Int), 6) ∧ w.1 ≠ (6, (x : Int)) := by
  obtain ⟨dx, dy, hdx1, hdx2, hdy1, hdy2, hkey⟩ := finderWrites_elem cx cy s w hw
  rw [hkey]
  rcases hcenter with ⟨rfl, rfl⟩ | ⟨rfl, rfl⟩ | ⟨rfl, rfl⟩ <;>
    (constructor <;> intro heq <;> (rw [Prod.mk.injEq] at heq; omega))

/-! ### The timing line after `drawPatterns` -/

theorem drawPatterns_timing (st : QRState) (v lvl m : Nat)
    (hsz : st.size = 4 * v + 17) (hv1 : 1 ≤ v) (hv2 : v ≤ 40) (x : Nat)
    (hx1 : 8 ≤ x) (hx2 : x + 9 ≤ st.size) :
    ((drawPatterns st v lvl m).blocks ((x : Int), 6) = decide (x % 2 = 0) ∧
      (drawPatterns st v lvl m).func ((x : Int), 6) = true) ∧
    ((drawPatterns st v lvl m).blocks (6, (x : Int)) = decide (x % 2 = 0) ∧
      (drawPatterns st v lvl m).func (6, (x : Int)) = true) := by
  have hs21 : 21 ≤ st.size := by omega
  have hxsz : x < st.size := by omega
  unfold drawPatterns
  constructor
  · constructor
    · refine applyWrites_blocks_preserve _ _ _ _ ?_
        (fun w hw h1 => absurd h1 (versionWrites_ne v st.size hsz x w hw).1)
      refine applyWrites_blocks_preserve _ _ _ _ ?_
        (fun w hw h1 => absurd h1 (formatWrites_ne _ st.size hs21 x w hw).1)
      refine applyWrites_blocks_preserve _ _ _ _ ?_
        (fun w hw h1 => drawAlignmentWrites_val_row v hv1 hv2 x w hw h1)
      refine applyWrites_blocks_preserve _ _ _ _ ?_
        (fun w hw h1 => absurd h1
          (finderWrites_ne 3 ((st.size : Int) - 4) st.size x hx1 hx2 hs21
            (Or.inr (Or.inr ⟨rfl, rfl⟩)) w hw).1)
      refine applyWrites_blocks_preserve _ _ _ _ ?_
        (fun w hw h1 => absurd h1
          (finderWrites_ne ((st.size : Int) - 4) 3 st.size x hx1 hx2 hs21
            (Or.inr (Or.inl ⟨rfl, rfl⟩)) w hw).1)
      refine applyWrites_blocks_preserve _ _ _ _ ?_
        (fun w hw h1 => absurd h1
          (finderWrites_ne 3 3 st.size x hx1 hx2 hs21 (Or.inl ⟨rfl, rfl⟩) w hw).1)
      exact applyWrites_blocks_const _ _ _ _
        (fun w hw h1 => timingWrites_val_row st.size x w hw h1)
        (timingWrites_mem_row st.size x hxsz)
    · refine applyWrites_func_mono _ _ _ (applyWrites_func_mono _ _ _
        (applyWrites_func_mono _ _ _ (applyWrites_func_mono _ _ _
          (applyWrites_func_mono _ _ _ (applyWrites_func_mono _ _ _ ?_)))))
      exact applyWrites_func_of_mem _ _ _ (timingWrites_mem_row st.size x hxsz)
  · constructor
    · refine applyWrites_blocks_preserve _ _ _ _ ?_
        (fun w hw h1 => absurd h1 (versionWrites_ne v st.size hsz x w hw).2)
      refine applyWrites_blocks_preserve _ _ _ _ ?_
        (fun w hw h1 => absurd h1 (formatWrites_ne _ st.size hs21 x w hw).2)
      refine applyWrites_blocks_preserve _ _ _ _ ?_
        (fun w hw h1 => drawAlignmentWrites_val_col v hv1 hv2 x w hw h1)
      refine applyWrites_blocks_preserve _ _ _ _ ?_
        (fun w hw h1 => absurd h1
          (finderWrites_ne 3 ((st.size : Int) - 4) st.size x hx1 hx2 hs21
            (Or.inr (Or.inr ⟨rfl, rfl⟩)) w hw).2)
      refine applyWrites_blocks_preserve _ _ _ _ ?_
        (fun w hw h1 => absurd h1
          (finderWrites_ne ((st.size : Int) - 4) 3 st.size x hx1 hx2 hs21
            (Or.inr (Or.inl ⟨rfl, rfl⟩)) w hw).2)
      refine applyWrites_blocks_preserve _ _ _ _ ?_
        (fun w hw h1 => absurd h1
          (finderWrites_ne 3 3 st.size x hx1 hx2 hs21 (Or.inl ⟨rfl, rfl⟩) w hw).2)
      exact applyWrites_blocks_const _ _ _ _
        (fun w hw h1 => timingWrites_val_col st.size x w hw h1)
        (timingWrites_mem_col st.size x hxsz)
    · refine applyWrites_func_mono _ _ _ (applyWrites_func_mono _ _ _
        (applyWrites_func_mono _ _ _ (applyWrites_func_mono _ _ _
          (applyWrites_func_mono _ _ _ (applyWrites_func_mono _ _ _ ?_)))))
      exact applyWrites_func_of_mem _ _ _ (timingWrites_mem_col st.size x hxsz)

/-! ### Reserved cells survive codeword placement and masking -/

theorem drawCodewords_func (st : QRState) (data : List Nat) :
    (drawCodewords st data).func = st.func := rfl

theorem drawCodewords_size (st : QRState) (data : List Nat) :
    (drawCodewords st data).size = st.size := rfl

theorem maskRun_func (m : Nat) (st : QRState) : (maskRun m st).func = st.func := rfl

theorem drawCodewordsStep_preserve (st : QRState) (data : List Nat) (p : Pos)
    (hp : st.func p = true) (acc : (Pos → Bool) × Nat) (q : Nat × Nat) (b : Bool)
    (h : acc.1 p = b) : (drawCodewordsStep st data acc q).1 p = b := by
  unfold drawCodewordsStep
  split
  · next hc =>
    simp only
    rw [if_neg (show ¬ (p = ((q.1 : Int), (q.2 : Int))) from
      fun heq => hc.1 (heq ▸ hp))]
    exact h
  · exact h

theorem drawCodewords_preserve (st : QRState) (data : List Nat) (p : Pos)
    (hp : st.func p = true) : (drawCodewords st data).blocks p = st.blocks p := by
  unfold drawCodewords
  simp only
  have key : ∀ (L : List (Nat × Nat)) (acc : (Pos → Bool) × Nat),
      acc.1 p = st.blocks p →
      (L.foldl (drawCodewordsStep st data) acc).1 p = st.blocks p := by
    intro L
    induction L with
    | nil => intro acc h; exact h
    | cons q L ih =>
      intro acc h
      rw [List.foldl_cons]
      exact ih _ (drawCodewordsStep_preserve st data p hp acc q _ h)
  exact key _ _ rfl

theorem maskStepCell_preserve (m : Nat) (st : QRState) (p : Pos)
    (hp : st.func p = true) (g : Pos → Bool) (q : Nat × Nat) (b : Bool)
    (h : g p = b) : maskStepCell m st g q p = b := by
  unfold maskStepCell
  split
  · next heq =>
    rw [← heq, hp, h]
    simp
  · exact h

theorem maskRun_preserve (m : Nat) (st : QRState) (p : Pos)
    (hp : st.func p = true) : (maskRun m st).blocks p = st.blocks p := by
  unfold maskRun
  simp only
  have key : ∀ (L : List (Nat × Nat)) (g : Pos → Bool), g p = st.blocks p →
      (L.foldl (maskStepCell m st) g) p = st.blocks p := by
    intro L
    induction L with
    | nil => intro g h; exact h
    | cons q L ih =>
      intro g h
      rw [List.foldl_cons]
      exact ih _ (maskStepCell_preserve m st p hp g q _ h)
  exact key _ _ rfl

theorem setVersionAndErrorLevel_bounds (enc : Encoding) (len : Int) (minIdx : Nat)
    (v j : Nat) (h : setVersionAndErrorLevel enc len minIdx = some (v, j)) :
    1 ≤ v ∧ v ≤ 40 := by
  unfold setVersionAndErrorLevel at h
  obtain ⟨i, hi, h1, _⟩ := findSome?_some_first _ _ _ h
  have hg : ((List.range 40).map (fun k => k + 1)).get ⟨i, hi⟩ = i + 1 := by simp
  rw [hg] at h1
  obtain ⟨i2, hi2, h1b, _⟩ := findSome?_some_first _ _ _ h1
  obtain ⟨hp, _⟩ := levelFit_eq_some _ _ _ _ _ h1b
  have hilen : i < 40 := by simpa using hi
  have hv : v = i + 1 := by
    rw [Prod.ext_iff] at hp
    exact hp.1
  omega

theorem clampMask_range (msk : Int) : 0 ≤ clampMask msk ∧ clampMask msk ≤ 7 := by
  unfold clampMask
  split <;> omega

theorem maskApply_clampMask (msk : Int) (st : QRState) :
    maskApply (clampMask msk) st = some (maskRun (clampMask msk).toNat st) := by
  have h := clampMask_range msk
  unfold maskApply
  rw [if_neg (by omega)]

/-- C7: in every constructed symbol, every cell on row 6 or column 6 that lies
outside the finder regions (coordinate in `[8, size-9]`) is dark exactly when
its position along the line is even - including the cells overlapped by
alignment patterns (whose centres sit on even tracks, so their 5×5 rings
reproduce the alternation) and the cells adjacent to the format strips (which
never write to the timing row or column). -/
theorem C7_timing_pattern (text : List Nat) (minErr : Nat) (msk : Int)
    (sym : QRSymbol) (h : qrConstruct text minErr msk = some sym) (x : Nat)
    (hx1 : 8 ≤ x) (hx2 : x + 9 ≤ sym.size) :
    sym.blocks ((x : Int), 6) = decide (x % 2 = 0) ∧
      sym.blocks (6, (x : Int)) = decide (x % 2 = 0) := by
  unfold qrConstruct at h
  cases henc : determineEncoding text with
  | none => rw [henc] at h; simp at h
  | some enc =>
    rw [henc, Option.some_bind] at h
    cases hvl : setVersionAndErrorLevel enc (text.length : Int) minErr with
    | none => rw [hvl] at h; simp at h
    | some vl =>
      rw [hvl, Option.some_bind] at h
      cases hdt : encodeText enc vl.1 vl.2 text with
      | none => rw [hdt] at h; simp at h
      | some data =>
        rw [hdt, Option.some_bind, maskApply_clampMask] at h
        rw [Option.map_some'] at h
        have hsym := Option.some_inj.mp h
        obtain ⟨hv1, hv2⟩ := setVersionAndErrorLevel_bounds enc _ minErr vl.1 vl.2 hvl
        subst hsym
        have hx2' : x + 9 ≤ 4 * vl.1 + 17 := hx2
        have hP := drawPatterns_timing (initState (4 * vl.1 + 17)) vl.1 vl.2
          (clampMask msk).toNat rfl hv1 hv2 x hx1 hx2'
        constructor
        · show (maskRun (clampMask msk).toNat _).blocks _ = _
          rw [maskRun_preserve _ _ _ (by
            rw [drawCodewords_func]
            exact hP.1.2)]
          rw [drawCodewords_preserve _ _ _ hP.1.2]
          exact hP.1.1
        · show (maskRun (clampMask msk).toNat _).blocks _ = _
          rw [maskRun_preserve _ _ _ (by
            rw [drawCodewords_func]
            exact hP.2.2)]
          rw [drawCodewords_preserve _ _ _ hP.2.2]
          exact hP.2.1

/-- Witness for C7: the symbol built from "0" at level Low, mask 0, is dark at
`(8, 6)` (position 8 on the timing row is even). -/
theorem C7_timing_pattern_witness :
    (qrConstruct [48] 0 0).map (fun s => s.blocks ((8 : Int), 6)) = some true := by
  have hsz : (qrConstruct [48] 0 0).map (fun s => s.size) = some 21 := by rfl
  cases hq : qrConstruct [48] 0 0 with
  | none => rw [hq] at hsz; simp at hsz
  | some s =>
    rw [hq, Option.map_some'] at hsz
    have h21 : s.size = 21 := Option.some_inj.mp hsz
    have h := (C7_timing_pattern [48] 0 0 s hq 8 (by omega) (by omega)).1
    rw [Option.map_some']
    simpa using h

/-- C8: a cell marked in the reservation mask is never written by the
codeword-placement step, and for every mask index in `[0,7]` the mask stage
leaves its value unchanged versus the pre-mask state. -/
theorem C8_reserved_cells_untouched (st : QRState) (data : List Nat) (p : Pos)
    (hp : st.func p = true) :
    (drawCodewords st data).blocks p = st.blocks p ∧
    ∀ m : Int, 0 ≤ m → m ≤ 7 →
      maskApply m st = some (maskRun m.toNat st) ∧
        (maskRun m.toNat st).blocks p = st.blocks p := by
  refine ⟨drawCodewords_preserve st data p hp, fun m hm1 hm2 => ⟨?_, ?_⟩⟩
  · unfold maskApply
    rw [if_neg (by omega)]
  · exact maskRun_preserve m.toNat st p hp

/-- Witness for C8 on a 1×1 state whose only cell is reserved, with mask 0. -/
theorem C8_reserved_cells_untouched_witness :
    (drawCodewords ⟨1, fun _ => false, fun _ => true⟩ [255]).blocks (0, 0) =
      (⟨1, fun _ => false, fun _ => true⟩ : QRState).blocks (0, 0) ∧
    maskApply 0 ⟨1, fun _ => false, fun _ => true⟩ =
      some (maskRun 0 ⟨1, fun _ => false, fun _ => true⟩) ∧
    (maskRun 0 (⟨1, fun _ => false, fun _ => true⟩ : QRState)).blocks (0, 0) =
      (⟨1, fun _ => false, fun _ => true⟩ : QRState).blocks (0, 0) := by
  have h := C8_reserved_cells_untouched ⟨1, fun _ => false, fun _ => true⟩ [255] (0, 0) rfl
  have h0 := h.2 0 (by omega) (by omega)
  exact ⟨h.1, h0.1, h0.2⟩

/-- C9: a mask index outside `[0,7]` is replaced by 0 at construction entry -
the whole construction behaves exactly as with mask 0 - while the mask routine
itself rejects such an index (`none` models the "Invalid mask." throw). -/
theorem C9_mask_policy (m : Int) (hm : m < 0 ∨ m > 7) :
    clampMask m = 0 ∧
      (∀ text : List Nat, ∀ minErr : Nat,
        qrConstruct text minErr m = qrConstruct text minErr 0) ∧
      (∀ st : QRState, maskApply m st = none) := by
  have hc : clampMask m = 0 := by
    unfold clampMask
    rw [if_pos hm]
  refine ⟨hc, fun text minErr => ?_, fun st => ?_⟩
  · unfold qrConstruct
    rw [hc, show clampMask 0 = 0 from rfl]
  · unfold maskApply
    rw [if_pos hm]

/-- Witness for C9 at mask index 9. -/
theorem C9_mask_policy_witness :
    clampMask 9 = 0 ∧ qrConstruct [48] 0 9 = qrConstruct [48] 0 0 ∧
      maskApply 9 (initState 1) = none := by
  obtain ⟨h1, h2, h3⟩ := C9_mask_policy 9 (by decide)
  exact ⟨h1, h2 [48] 0, h3 (initState 1)⟩

/-- C10: construction is deterministic - the embedded constructor is a pure
function of (text, minimum level, mask index), so two runs on the same inputs
produce the same result (same module matrix, reservation mask, version,
level, mode, and mask index, or the same failure). -/
theorem C10_construction_deterministic (text : List Nat) (minErr : Nat) (msk : Int)
    (r1 r2 : Option QRSymbol) (h1 : qrConstruct text minErr msk = r1)
    (h2 : qrConstruct text minErr msk = r2) : r1 = r2 :=
  h1.symm.trans h2

/-- Witness for C10 on the input "0" at level Low, mask 0. -/
theorem C10_construction_deterministic_witness :
    qrConstruct [48] 0 0 = qrConstruct [48] 0 0 :=
  C10_construction_deterministic [48] 0 0 _ _ rfl rfl

end QR
